import Mathlib

/-!
# Verification of the sudoku generator/solver

A shallow embedding of the sudoku repository (grid model `sudoku/board.py`,
iterative backtracking solver `engines/Solver.py`, reducer
`sudoku/engines/reducer.py`, and `sudoku/utils.py`), together with proofs of
the specified properties.

Conventions of the embedding:
* Python symbol tokens are Lean `String`s (the code normalizes symbols with
  `str(...)` at construction time, and compares only by equality afterwards).
* An unassigned cell's `symbol = None` is `Option.none`.
* Mutation of a board becomes functional update of the `cells` array; the
  row/column/box lookup dictionaries alias the same cell objects in Python,
  so they are embedded as functions reading the `cells` array.
* `int(math.sqrt(n))` is embedded faithfully as `floatSqrtInt n`: `n` is
  rounded to the nearest IEEE-754 binary64 value (53 significant bits,
  round-to-nearest, ties to even), the square root is correctly rounded to
  binary64 (as IEEE-754 requires of `sqrt`), and the result is truncated to
  an integer.  For large `n` this float pipeline can exceed the exact
  integer square root `intSqrt n` (kept as the mathematical reference
  point), which makes `closest_factors` return its pair in reversed order;
  the two agree on every `n ≤ 2^52`.  The model covers the domain below the
  binary64 overflow threshold `2^1024`, beyond which Python's `float(n)`
  raises `OverflowError`.
-/

namespace Sudoku

/-! ## utils.py -/

/-- Helper for `intSqrt`: the largest `i ≤ k` with `i * i ≤ n` (or `0`). -/
def intSqrtAux (n : Nat) : Nat → Nat
  | 0 => 0
  | k + 1 => if (k + 1) * (k + 1) ≤ n then k + 1 else intSqrtAux n k

/-- The exact integer square root `⌊√n⌋` — the mathematical reference
point against which the program's float computation is compared. -/
def intSqrt (n : Nat) : Nat :=
  intSqrtAux n n

/-- Number of binary digits of `n` (`0` for `n = 0`).  The first argument
is fuel bounding the recursion depth; any fuel `≥ n` is exact. -/
def bitlenAux : Nat → Nat → Nat
  | 0, _ => 0
  | fuel + 1, n => if n = 0 then 0 else bitlenAux fuel (n / 2) + 1

def bitlen (n : Nat) : Nat :=
  bitlenAux n n

/-- Integer Newton iteration for the square root, from above: starting at
any `x ≥ ⌊√n⌋ ≥ 1`, the iterate `(x + n / x) / 2` stays `≥ ⌊√n⌋` (AM-GM)
and is strictly smaller than `x` whenever `x > ⌊√n⌋`, so the first
non-decreasing step happens exactly at `⌊√n⌋`.  The fuel only bounds the
recursion depth; `n` steps are always ample. -/
def newtonSqrtAux : Nat → Nat → Nat → Nat
  | 0, _, x => x
  | fuel + 1, n, x =>
    if (x + n / x) / 2 < x then newtonSqrtAux fuel n ((x + n / x) / 2) else x

/-- Exact integer square root in logarithmically many steps (so that it
kernel-evaluates on 200-bit inputs), used only to compute the correctly
rounded float square root below. -/
def isqrtFast (n : Nat) : Nat :=
  if n ≤ 1 then n else newtonSqrtAux n n n

/-- `float(n)`: the IEEE-754 binary64 value nearest to `n`, ties to even,
returned as an exact natural number (exact because for `n ≥ 2^53` the
rounding scale `2^(L-53)` is a nonnegative power of two).  Faithful below
the overflow threshold `2^1024`, where Python raises `OverflowError`. -/
def fl53 (n : Nat) : Nat :=
  let L := bitlen n
  if L ≤ 53 then n
  else
    let s := L - 53
    let q := n / 2 ^ s
    let r := n % 2 ^ s
    let half := 2 ^ (s - 1)
    if half < r ∨ (r = half ∧ q % 2 = 1) then (q + 1) * 2 ^ s else q * 2 ^ s

/-- `int(math.sqrt(n))` as the program computes it: convert `n` to binary64
(`fl53 n =: y`), take the correctly rounded binary64 square root of `y`,
and truncate toward zero.  With `k` such that `√y ∈ [2^k, 2^(k+1))`, the
binary64 grid there is `m · 2^(k-52)` for `2^52 ≤ m ≤ 2^53`, and rounding
`√y` to it is rounding `√w` to the nearest integer `m`, where
`w = y · 4^52 / 4^k` (an exact division, as `y` carries at least
`2(k - 52)` trailing zero bits).  The nearest integer to `√w` is
`(⌊√(4w)⌋ + 1) / 2`; a round-to-even tie would force `4w` to be an odd
perfect square, which is impossible, so ties never occur.  The result
value `m · 2^(k-52)` truncates to `m / 2^(52-k)` resp. `m · 2^(k-52)`. -/
def floatSqrtInt (n : Nat) : Nat :=
  if n = 0 then 0
  else
    let y := fl53 n
    let k := (bitlen y - 1) / 2
    let m := (isqrtFast (4 * (y * 4 ^ 52 / 4 ^ k)) + 1) / 2
    if k ≤ 52 then m / 2 ^ (52 - k) else m * 2 ^ (k - 52)

/-- The downward scan `for i in range(sqrt_n, 0, -1): if n % i == 0: return i`
from `closest_factors`: the first divisor of `n` found scanning from `k` down
to `1`. -/
def findFactorDown (n : Nat) : Nat → Option Nat
  | 0 => none
  | k + 1 => if n % (k + 1) = 0 then some (k + 1) else findFactorDown n k

/-- `closest_factors` from `sudoku/utils.py`: a pair `(a, b)` with
`a * b == n`, scanning for `a` downward from `int(math.sqrt(n))` — the
float computation `floatSqrtInt n`, which for large `n` can exceed the
exact root and then return a pair with `a > b`; the trailing
`return (1, n)` is reached only when the scan range is empty. -/
def closest_factors (n : Nat) : Nat × Nat :=
  match findFactorDown n (floatSqrtInt n) with
  | some i => (i, n / i)
  | none => (1, n)

/-! ## The grid model (`sudoku/board.py`)

A `Cell` carries its coordinates, box id, assignment and working candidate
list.  Python initializes `candidates` to `None`; the claims under proof
never read an uninitialized candidate list of a *new-layout* board, and the
old-layout board (`Board.py`) initializes every candidate list to the symbol
list, so `candidates` is embedded as a plain `List String` (with `[]` for
`None`). -/

structure Cell where
  row : Nat
  col : Nat
  box : Nat
  symbol : Option String
  candidates : List String
deriving DecidableEq

/-- The default cell used for out-of-range lookups (never hit on an actual
grid; lookups are guarded by range facts in all proofs). -/
def dfltCell : Cell :=
  { row := 0, col := 0, box := 0, symbol := none, candidates := [] }

instance : Inhabited Cell := ⟨dfltCell⟩

structure Board where
  symbols : List String
  empty_symbol : String
  size : Nat
  num_bands : Nat
  num_stacks : Nat
  cells : List (List Cell)
deriving DecidableEq

/-- The box id computed in `initialize_cells`:
`box = (row // num_stacks) * num_stacks + (col // num_bands)`. -/
def boxIdOf (num_bands num_stacks row col : Nat) : Nat :=
  row / num_stacks * num_stacks + col / num_bands

/-- Python's `<` on characters (comparison of code points). -/
def charLt (a b : Char) : Bool :=
  a.toNat < b.toNat

/-- Lexicographic `≤` on character lists, comparing code points — the
order Python's `sorted` uses on strings. -/
def strLeAux : List Char → List Char → Bool
  | [], _ => true
  | _ :: _, [] => false
  | a :: as, b :: bs =>
    if charLt a b then true else if charLt b a then false else strLeAux as bs

def strLe (a b : String) : Bool :=
  strLeAux a.data b.data

/-- Stable insertion of `x` into a sorted list (helper of `sortSymbols`). -/
def insertSorted (x : String) : List String → List String
  | [] => [x]
  | y :: ys => if strLe x y then x :: y :: ys else y :: insertSorted x ys

/-- Python's `sorted` on the stringified symbols: a stable sort by the
lexicographic code-point order (embedded as insertion sort, which computes
the same sorted list: symbols comparing equal are equal strings). -/
def sortSymbols : List String → List String
  | [] => []
  | x :: xs => insertSorted x (sortSymbols xs)

/-- `Board.initialize_cells`: the `size × size` grid of fresh cells; each
cell records its row, column and box id.  The `rows`/`cols`/`boxes` lookup
dictionaries alias these same cells, so they are embedded as the derived
views `Board.rowCells`/`Board.colCells`/`Board.boxCells` below. -/
def initialize_cells (size num_bands num_stacks : Nat) : List (List Cell) :=
  (List.range size).map fun row =>
    (List.range size).map fun col =>
      { row := row, col := col, box := boxIdOf num_bands num_stacks row col,
        symbol := none, candidates := [] }

/-- The part of `Board.__init__` (new layout, `sudoku/board.py`) that runs
after the empty-symbol check, for an already-sorted symbol list: size, box
factoring, cell array. -/
def mkBoardCore (sortedSymbols : List String) (empty_symbol : String) : Board :=
  let size := sortedSymbols.length
  let nb := (closest_factors size).1
  let ns := (closest_factors size).2
  { symbols := sortedSymbols, empty_symbol := empty_symbol, size := size,
    num_bands := nb, num_stacks := ns,
    cells := initialize_cells size nb ns }

/-- The configuration errors raised at construction time (`ValueError`s in
`Board.__init__` / `Board.set_initial_state`). -/
inductive ConfigError where
  | emptySymbolInSymbols
  | initialStateLength
  | initialStateToken
deriving DecidableEq

instance {e a : Type} [DecidableEq e] [DecidableEq a] : DecidableEq (Except e a) := fun x y =>
  match x, y with
  | .ok u, .ok v =>
    if h : u = v then isTrue (by rw [h]) else isFalse (fun hc => h (by injection hc))
  | .error u, .error v =>
    if h : u = v then isTrue (by rw [h]) else isFalse (fun hc => h (by injection hc))
  | .ok _, .error _ => isFalse (fun hc => Except.noConfusion hc)
  | .error _, .ok _ => isFalse (fun hc => Except.noConfusion hc)

/-- One row of `set_initial_state`'s row-major walk: assign each cell the
next token (`None` for the empty symbol) and return the leftover tokens. -/
def assignRow (empty_symbol : String) : List Cell → List String → List Cell × List String
  | [], st => ([], st)
  | c :: cs, [] => (c :: cs, [])
  | c :: cs, t :: ts =>
    let rest := assignRow empty_symbol cs ts
    ({ c with symbol := if t = empty_symbol then none else some t } :: rest.1, rest.2)

/-- The full row-major walk of `set_initial_state` over the cell rows. -/
def assignRows (empty_symbol : String) : List (List Cell) → List String → List (List Cell)
  | [], _ => []
  | r :: rs, st =>
    let res := assignRow empty_symbol r st
    res.1 :: assignRows empty_symbol rs res.2

/-- `Board.set_initial_state`: validates the length and the tokens, then
assigns the tokens to the cells in row-major order (`ValueError` becomes
`Except.error`). -/
def Board.set_initial_state (b : Board) (initial_state : List String) :
    Except ConfigError Board :=
  if initial_state.length ≠ b.size * b.size then
    .error .initialStateLength
  else if initial_state.any fun t => !(b.symbols.contains t || t == b.empty_symbol) then
    .error .initialStateToken
  else
    .ok { b with cells := assignRows b.empty_symbol b.cells initial_state }

/-- `Board.__init__` (new layout): sort the stringified symbols, reject an
empty symbol that collides with them, build the cells, then populate from
the initial state.  `if initial_state:` is Python truthiness, so both `None`
and an *empty* sequence skip `set_initial_state`. -/
def mkBoard (symbols : List String) (initial_state : Option (List String))
    (empty_symbol : String) : Except ConfigError Board :=
  let sorted := sortSymbols symbols
  if empty_symbol ∈ sorted then
    .error .emptySymbolInSymbols
  else
    let b := mkBoardCore sorted empty_symbol
    match initial_state with
    | none => .ok b
    | some st => if st.isEmpty then .ok b else b.set_initial_state st

/-- `Board.__init__` of the old layout (`Board.py`): no empty-symbol check,
no initial state, and every cell's candidate list is initialized to the
symbol list.  (`empty_symbol` is fixed to `"0"` by its `__str__`.) -/
def mkOldBoard (symbols : List String) : Board :=
  let b := mkBoardCore (sortSymbols symbols) "0"
  { b with cells := b.cells.map fun rw => rw.map fun cell =>
      { cell with candidates := b.symbols } }

/-- The cell object at `cells[r][c]`. -/
def Board.cellAt (b : Board) (r c : Nat) : Cell :=
  (b.cells.getD r []).getD c dfltCell

/-- The assignment at position `p = (r, c)` (`None` also off-grid). -/
def Board.symbolAt (b : Board) (p : Nat × Nat) : Option String :=
  (b.cellAt p.1 p.2).symbol

/-- The candidate list stored at position `p`. -/
def Board.candidatesAt (b : Board) (p : Nat × Nat) : List String :=
  (b.cellAt p.1 p.2).candidates

/-- `cell.symbol = s` for the cell object at position `p`: functional update
of the cell array. -/
def Board.setSymbol (b : Board) (p : Nat × Nat) (s : Option String) : Board :=
  { b with cells := b.cells.modify (fun rw => rw.modify (fun cell => { cell with symbol := s }) p.2) p.1 }

/-- The `rows[r]` lookup list (aliases `cells[r]`). -/
def Board.rowCells (b : Board) (r : Nat) : List Cell :=
  b.cells.getD r []

/-- The `cols[c]` lookup list (the `c`-th cell of each row, top to bottom). -/
def Board.colCells (b : Board) (c : Nat) : List Cell :=
  b.cells.filterMap fun rw => rw.get? c

/-- The `boxes[bx]` lookup list (cells with box id `bx`, in row-major
insertion order). -/
def Board.boxCells (b : Board) (bx : Nat) : List Cell :=
  b.cells.flatten.filter fun cell => cell.box == bx

/-- `Board.copy`: a fresh board of the same configuration (fresh cells,
fresh lookup tables, no candidate lists) with all cell symbols copied. -/
def Board.copy (b : Board) : Board :=
  { b with cells := b.cells.map fun rw => rw.map fun cell =>
      { cell with candidates := [] } }

/-- `Board.calculate_cell_candidates`: all symbols (as a set — embedded as
the deduplicated symbol list) minus every symbol present in the given
cell's row, column, or box.  Note the cell's own symbol is also discarded:
the scan does not skip the cell itself. -/
def Board.calculate_cell_candidates (b : Board) (cell : Cell) : List String :=
  b.symbols.dedup.filter fun s =>
    ((b.rowCells cell.row).all fun q => !(q.symbol == some s)) &&
    ((b.colCells cell.col).all fun q => !(q.symbol == some s)) &&
    ((b.boxCells cell.box).all fun q => !(q.symbol == some s))

/-- `Board.calculate_all_empty_cell_candidates`: overwrite each empty cell's
candidate list with its computed candidates.  The computation reads only
symbols, never candidate lists, so the sequential in-place loop equals this
batch update over the original board. -/
def Board.calculate_all_empty_cell_candidates (b : Board) : Board :=
  { b with cells := b.cells.map fun rw => rw.map fun cell =>
      if cell.symbol = none then
        { cell with candidates := b.calculate_cell_candidates cell }
      else cell }

/-- `Board.__str__`: the row-major flat sequence of assigned symbols, with
the empty symbol for unassigned cells.  (Embedded as the token sequence;
Python concatenates the tokens into one string.) -/
def Board.str (b : Board) : List String :=
  b.cells.flatten.map fun cell => cell.symbol.getD b.empty_symbol

/-! ## The search engine (`engines/Solver.py`) -/

/-- `Solver.is_candidate_valid`: scan the cell's row, column and box lookup
lists for a cell *other than this one* (`is not cell`; object identity is
embedded as equality of the coordinate fields, which are distinct across
distinct cells of a constructed grid) holding the candidate symbol. -/
def Solver.is_candidate_valid (b : Board) (candidate : String) (cell : Cell) : Bool :=
  ((b.rowCells cell.row).all fun q =>
    (q.row == cell.row && q.col == cell.col) || !(q.symbol == some candidate)) &&
  ((b.colCells cell.col).all fun q =>
    (q.row == cell.row && q.col == cell.col) || !(q.symbol == some candidate)) &&
  ((b.boxCells cell.box).all fun q =>
    (q.row == cell.row && q.col == cell.col) || !(q.symbol == some candidate))

/-- The row-major list of positions of currently-empty cells:
`[[cell, 0] for row in cells for cell in row if cell.symbol is None]`, with
the cell objects identified by their grid positions. -/
def Board.emptyPositions (b : Board) : List (Nat × Nat) :=
  (List.range b.cells.length).flatMap fun r =>
    (List.range (b.cells.getD r []).length).filterMap fun c =>
      if (b.cellAt r c).symbol = none then some (r, c) else none

/-- The mutable state of `solve_backtrack`'s iterative loop: the board, the
candidate cursors (`empty_cells[j][1]`), and the current `cell_index`.  The
cell components of `empty_cells` form the fixed shuffled position list
`order`, passed separately since the loop never changes them. -/
structure SolveState where
  board : Board
  ks : List Nat
  idx : Nat
deriving DecidableEq

/-- The inner `while True` candidate scan of `solve_backtrack`: the first
index `k' ≥ k` in the candidate list whose candidate passes
`is_candidate_valid`, if any. -/
def firstValidAux (b : Board) (cell : Cell) : List String → Nat → Option Nat
  | [], _ => none
  | cand :: rest, k =>
    if Solver.is_candidate_valid b cand cell then some k
    else firstValidAux b cell rest (k + 1)

def firstValidFrom (b : Board) (cell : Cell) (cands : List String) (k : Nat) : Option Nat :=
  firstValidAux b cell (cands.drop k) k

/-- `return empty_cells[-1][0].symbol is not None`. -/
def finalReturn (b : Board) (order : List (Nat × Nat)) : Bool :=
  match order.getLast? with
  | some p => (b.symbolAt p).isSome
  | none => false

inductive StepRes where
  | done (result : Bool) (board : Board)
  | next (s : SolveState)

/-- The scan-and-move part of one loop iteration, after the backtrack-clear
has produced board `b1` and scan start `k1`: find the first legal candidate
from `k1` on; on success place it, record the cursor and advance; on
exhaustion reset the cursor and back up (backing up from index 0 makes
`cell_index = -1`, where the next loop top immediately breaks — that break
is fused in here, with the same returned value). -/
def solveTry (order : List (Nat × Nat)) (b1 : Board) (ks : List Nat)
    (idx k1 : Nat) : StepRes :=
  match firstValidFrom b1
      (b1.cellAt (order.getD idx (0, 0)).1 (order.getD idx (0, 0)).2)
      (b1.candidatesAt (order.getD idx (0, 0))) k1 with
  | some kf =>
    .next { board := b1.setSymbol (order.getD idx (0, 0))
              (some ((b1.candidatesAt (order.getD idx (0, 0))).getD kf "")),
            ks := ks.set idx kf, idx := idx + 1 }
  | none =>
    match idx with
    | 0 => .done (finalReturn b1 order) b1
    | i + 1 => .next { board := b1, ks := ks.set (i + 1) 0, idx := i }

/-- One iteration of the outer `while True` loop of `solve_backtrack`,
including the terminating checks at the loop top.  If the current cell is
already filled this is a backtrack step: clear it and advance the cursor
past the symbol just proven a dead end, then scan (`solveTry`).  The
`DEBUG` block assigns and immediately clears the same symbol, so it is the
identity on the state and is omitted. -/
def solveStep (order : List (Nat × Nat)) (s : SolveState) : StepRes :=
  if s.idx ≥ order.length then
    .done (finalReturn s.board order) s.board
  else if (s.board.symbolAt (order.getD s.idx (0, 0))).isSome then
    solveTry order (s.board.setSymbol (order.getD s.idx (0, 0)) none) s.ks s.idx
      (s.ks.getD s.idx 0 + 1)
  else
    solveTry order s.board s.ks s.idx (s.ks.getD s.idx 0)

/-- The outer loop with explicit fuel.  The Python loop has no bound — fuel
only makes the embedding total; termination (enough fuel always exists) is
proved separately. -/
def solveLoop (order : List (Nat × Nat)) : Nat → SolveState → Option (Bool × Board)
  | 0, _ => none
  | fuel + 1, s =>
    match solveStep order s with
    | .done r b => some (r, b)
    | .next s' => solveLoop order fuel s'

/-- `Solver.solve_backtrack`: collect the empty cells, succeed immediately
when there are none, else run the loop from index 0 with all cursors 0.
`order` models the result of `random.shuffle(empty_cells)`: an arbitrary
permutation of the row-major empty-cell list. -/
def Solver.solve_backtrack (b : Board) (order : List (Nat × Nat)) (fuel : Nat) :
    Option (Bool × Board) :=
  if b.emptyPositions.length = 0 then some (true, b)
  else solveLoop order fuel { board := b, ks := List.replicate order.length 0, idx := 0 }

/-- Modelled from the spec: `Solver.solve` (file `sudoku/engines/solver.py`)
is absent from the sources — only its callers and tests survive.  Per the
spec (§9 open question, §4.2 step 2) it populates every unassigned cell's
candidate list from the current legal constraints and then delegates to the
backtracking routine; the row-major order stands for one outcome of the
shuffle. -/
def Solver.solve (b : Board) (fuel : Nat) : Bool :=
  let bc := b.calculate_all_empty_cell_candidates
  match Solver.solve_backtrack bc bc.emptyPositions fuel with
  | some (res, _) => res
  | none => false

/-! ## The reducer (`sudoku/engines/reducer.py`) -/

/-- `Reducer.reduce_cell`, for the cell object at position `(r, c)` of the
reducer's board.  The fresh `Solver(new_board).solve()` run on each trial
clone is the parameter `solveFn` (instantiated with the spec-modelled
`Solver.solve` where a claim speaks of the concrete engine); the Python
`for` loop with its early `return False` is `List.any` over the candidate
set.  Returns the `bool` result paired with the reducer's board (mutated
exactly when the result is `True`). -/
def Reducer.reduce_cell (solveFn : Board → Bool) (b : Board) (r c : Nat) :
    Bool × Board :=
  let cell := b.cellAt r c
  if cell.symbol = none then (false, b)
  else
    let possible_candidates := b.calculate_cell_candidates cell
    if possible_candidates.any fun v =>
        solveFn ((b.copy).setSymbol (cell.row, cell.col) (some v)) then
      (false, b)
    else
      (true, b.setSymbol (r, c) none)

/-! ## Specification predicates and the termination measure -/

/-- Forget all assignments.  Used to state that an operation changes nothing
but symbols: array shape, coordinates, box ids and candidate lists are
untouched. -/
def Board.stripSymbols (b : Board) : Board :=
  { b with cells := b.cells.map fun rw => rw.map fun cell => { cell with symbol := none } }

/-- Structural well-formedness of a constructed grid: a full `size × size`
cell array whose cells carry their own coordinates and box ids, with the
box factoring multiplying out to the size. -/
def Board.WF (b : Board) : Prop :=
  b.cells.length = b.size ∧
  (∀ r < b.size, (b.cells.getD r []).length = b.size) ∧
  (∀ r < b.size, ∀ c < b.size,
    (b.cellAt r c).row = r ∧ (b.cellAt r c).col = c ∧
    (b.cellAt r c).box = boxIdOf b.num_bands b.num_stacks r c) ∧
  b.num_bands * b.num_stacks = b.size

instance (b : Board) : Decidable b.WF := by
  unfold Board.WF
  infer_instance

/-- Position `p` addresses an actual cell of the board's cell array. -/
def Board.inRange (b : Board) (p : Nat × Nat) : Prop :=
  p.1 < b.cells.length ∧ p.2 < (b.cells.getD p.1 []).length

instance (b : Board) (p : Nat × Nat) : Decidable (b.inRange p) := by
  unfold Board.inRange
  infer_instance

/-- Two grid positions share a group (same row, same column, or same box)
of the given box geometry. -/
def sameGroup (nb ns r c r' c' : Nat) : Prop :=
  r = r' ∨ c = c' ∨ boxIdOf nb ns r c = boxIdOf nb ns r' c'

instance (nb ns r c r' c' : Nat) : Decidable (sameGroup nb ns r c r' c') := by
  unfold sameGroup
  infer_instance

/-- Validity of a grid, stated on positions: no two distinct in-range
positions sharing a group hold equal assigned symbols. -/
def Board.ValidIdx (b : Board) : Prop :=
  ∀ r < b.size, ∀ c < b.size, ∀ r' < b.size, ∀ c' < b.size,
    (r, c) ≠ (r', c') →
    sameGroup b.num_bands b.num_stacks r c r' c' →
    b.symbolAt (r, c) = none ∨ b.symbolAt (r, c) ≠ b.symbolAt (r', c')

instance (b : Board) : Decidable b.ValidIdx := by
  unfold Board.ValidIdx
  refine @Nat.decidableBallLT _ _ ?_
  intro r hr
  refine @Nat.decidableBallLT _ _ ?_
  intro c hc
  refine @Nat.decidableBallLT _ _ ?_
  intro r' hr'
  refine @Nat.decidableBallLT _ _ ?_
  intro c' hc'
  infer_instance

/-- The loop invariant of `solve_backtrack`, holding at the top of the outer
loop, for a run started on board `b0` with shuffled empty-cell list
`order`. -/
structure LoopInv (b0 : Board) (order : List (Nat × Nat)) (s : SolveState) : Prop where
  ks_len : s.ks.length = order.length
  idx_le : s.idx ≤ order.length
  nodup : order.Nodup
  order_mem : ∀ p ∈ order, p ∈ b0.emptyPositions
  shape : s.board.stripSymbols = b0.stripSymbols
  assigned_lt : ∀ j < s.idx, (s.board.symbolAt (order.getD j (0, 0))).isSome
  unassigned_gt : ∀ j, s.idx < j → j < order.length →
    s.board.symbolAt (order.getD j (0, 0)) = none
  frame : ∀ p, p ∉ order → s.board.symbolAt p = b0.symbolAt p
  ks_le : ∀ j < order.length,
    s.ks.getD j 0 ≤ (s.board.candidatesAt (order.getD j (0, 0))).length
  sym_mem : ∀ j < s.idx, ∃ v, s.board.symbolAt (order.getD j (0, 0)) = some v ∧
    v ∈ s.board.candidatesAt (order.getD j (0, 0))

/-- Length of the Euler-tour segment of a full search subtree, given the
candidate counts `ms` of the remaining cells (one child per candidate index
`0 … m`, since a cursor can also rest one past the last candidate). -/
def eulerSeg : List Nat → Nat
  | [] => 1
  | m :: ms => 1 + (m + 1) * (eulerSeg ms + 1)

/-- Euler-tour position of the search-tree node reached by following child
`k_j` at each level `j` (the stored cursors of the cells before the current
cell index). -/
def eulerPath : List Nat → List Nat → Nat
  | _, [] => 0
  | [], _ :: _ => 0
  | _ :: ms, k :: ks => 1 + k * (eulerSeg ms + 1) + eulerPath ms ks

/-- The candidate counts of a run: one per entry of `order`, read off the
starting board (the loop never changes a candidate list). -/
def candCounts (b0 : Board) (order : List (Nat × Nat)) : List Nat :=
  order.map fun p => (b0.candidatesAt p).length

/-- The Euler-tour progress measure of a loop state.  It strictly increases
at every iteration of the loop and is bounded by the full tour length —
the termination argument for `solve_backtrack`. -/
def loopMeasure (b0 : Board) (order : List (Nat × Nat)) (s : SolveState) : Nat :=
  eulerPath (candCounts b0 order) (s.ks.take s.idx) +
  if s.idx < order.length then
    if (s.board.symbolAt (order.getD s.idx (0, 0))).isSome then
      1 + s.ks.getD s.idx 0 * (eulerSeg ((candCounts b0 order).drop (s.idx + 1)) + 1) +
        eulerSeg ((candCounts b0 order).drop (s.idx + 1))
    else 0
  else 0

/-- The `i`-th position (row-major within the box) of box `bx`, for the
box geometry `num_bands = nb`, `num_stacks = ns`: the inverse of the
row-major enumeration of the set `\x7b p | boxIdOf nb ns p.1 p.2 = bx \x7d`. -/
def boxPos (nb ns bx i : Nat) : Nat × Nat :=
  (bx / ns * ns + i / nb, bx % ns * nb + i % nb)

/-! ## Concrete boards used by the witnesses -/

/-- A constructed 1×1 board over the alphabet `["1"]`, empty. -/
def wBoard1 : Board := mkBoardCore (sortSymbols ["1"]) "0"

/-- The 1×1 board with its only cell assigned `"1"`. -/
def wBoard1a : Board := wBoard1.setSymbol (0, 0) (some "1")

/-- A constructed 3×3 board over the duplicate-carrying symbol input
`["2", "1", "1"]`. -/
def wB211 : Board := mkBoardCore (sortSymbols ["2", "1", "1"]) "0"

/-- A constructed 2×2 board over the alphabet `["1", "2"]`, empty. -/
def wBoard2 : Board := mkBoardCore (sortSymbols ["1", "2"]) "0"

/-- The 2×2 board with the cell at `(0, 0)` assigned `"1"`. -/
def wBoard2a : Board := wBoard2.setSymbol (0, 0) (some "1")

end Sudoku

namespace Sudoku

/-! ### Theorems about closest_factors -/

theorem intSqrtAux_sq_le (n : Nat) : ∀ k, intSqrtAux n k * intSqrtAux n k ≤ n := by
  intro k
  induction k with
  | zero => simp [intSqrtAux]
  | succ k ih =>
    rw [intSqrtAux]
    by_cases h : (k + 1) * (k + 1) ≤ n
    · simp [h]
    · simpa [h] using ih

theorem le_intSqrtAux (n : Nat) {c k : Nat} (hck : c ≤ k) (hc : c * c ≤ n) :
    c ≤ intSqrtAux n k := by
  induction k with
  | zero => omega
  | succ k ih =>
    rw [intSqrtAux]
    by_cases h : (k + 1) * (k + 1) ≤ n
    · simpa [h] using hck
    · simp only [h, if_false]
      rcases Nat.lt_or_ge c (k + 1) with hlt | hge
      · exact ih (by omega)
      · have hck1 : c = k + 1 := by omega
        exact absurd (hck1 ▸ hc) h

theorem intSqrt_sq_le (n : Nat) : intSqrt n * intSqrt n ≤ n :=
  intSqrtAux_sq_le n n

theorem le_intSqrt {n c : Nat} (hc : c * c ≤ n) : c ≤ intSqrt n := by
  rcases Nat.eq_zero_or_pos c with h0 | h1
  · omega
  · exact le_intSqrtAux n (by nlinarith) hc

theorem findFactorDown_eq_some {n k i : Nat} (h : findFactorDown n k = some i) :
    n % i = 0 ∧ 1 ≤ i ∧ i ≤ k := by
  induction k with
  | zero => simp [findFactorDown] at h
  | succ k ih =>
    rw [findFactorDown] at h
    by_cases hk : n % (k + 1) = 0
    · simp [hk] at h
      subst h
      exact ⟨hk, by omega, by omega⟩
    · simp [hk] at h
      have := ih h
      omega

theorem findFactorDown_maximal {n k i : Nat} (h : findFactorDown n k = some i)
    {j : Nat} (hj : n % j = 0) (hjk : j ≤ k) (hij : i < j) : False := by
  induction k with
  | zero => simp [findFactorDown] at h
  | succ k ih =>
    rw [findFactorDown] at h
    by_cases hk : n % (k + 1) = 0
    · simp [hk] at h
      omega
    · simp [hk] at h
      rcases Nat.lt_or_ge j (k + 1) with hlt | hge
      · exact ih h (by omega)
      · have hj1 : j = k + 1 := by omega
        exact hk (hj1 ▸ hj)

theorem findFactorDown_isSome {n k : Nat} (h1 : 1 ≤ k) :
    ∃ i, findFactorDown n k = some i := by
  induction k with
  | zero => omega
  | succ k ih =>
    rw [findFactorDown]
    by_cases hk : n % (k + 1) = 0
    · exact ⟨k + 1, by simp [hk]⟩
    · rcases Nat.eq_zero_or_pos k with hk0 | hkpos
      · subst hk0
        exact absurd (by omega : n % (0 + 1) = 0) hk
      · simpa [hk] using ih hkpos

set_option maxRecDepth 100000 in
/-- Counterexample to C9 as stated universally: at `N = 2^110 - 2^55` the
float pipeline `int(math.sqrt(N))` returns `2^55` (the conversion of `N`
to binary64 rounds up to exactly `2^110`, whose square root `2^55` is one
above the exact integer root `2^55 - 1`), the downward scan immediately
hits the divisor `2^55 > √N`, and `closest_factors` returns the pair
`(2^55, 2^55 - 1)` in reversed order: `a ≤ b` fails. -/
theorem closest_factors_reversed_pair_cex :
    1 ≤ 2 ^ 110 - 2 ^ 55 ∧
    closest_factors (2 ^ 110 - 2 ^ 55) = (2 ^ 55, 2 ^ 55 - 1) ∧
    ¬ ((closest_factors (2 ^ 110 - 2 ^ 55)).1 ≤
        (closest_factors (2 ^ 110 - 2 ^ 55)).2) := by
  refine ⟨by decide, ?_, ?_⟩
  · decide
  · decide

/-- **C9** (amended): for every `N ≥ 1` on which the program's float
square root is exact — `floatSqrtInt N = intSqrt N`, which holds in
particular for every `N ≤ 2^52` and for every board size the program
constructs — `closest_factors N` returns `(a, b)` with `a * b = N`,
`a ≤ b`, and no factorization `c * d = N` has a smaller difference
`|d - c|` than `b - a`.  (The product `a * b = N` holds for every `N`
regardless of exactness: see `closest_factors_mul`.  When the float root
overshoots, the pair can come back reversed:
`closest_factors_reversed_pair_cex`.) -/
theorem closest_factors_spec_exact_sqrt (n : Nat) (hn : 1 ≤ n)
    (hexact : floatSqrtInt n = intSqrt n) :
    (closest_factors n).1 * (closest_factors n).2 = n ∧
    (closest_factors n).1 ≤ (closest_factors n).2 ∧
    ∀ c d : Nat, c * d = n →
      (closest_factors n).2 - (closest_factors n).1 ≤ max c d - min c d := by
  have hsq : 1 ≤ intSqrt n := le_intSqrt (by omega)
  obtain ⟨a, ha⟩ := findFactorDown_isSome (n := n) hsq
  obtain ⟨hdvd, ha1, hask⟩ := findFactorDown_eq_some ha
  have hmul : a * (n / a) = n := Nat.mul_div_cancel' (Nat.dvd_of_mod_eq_zero hdvd)
  have hcf : closest_factors n = (a, n / a) := by
    unfold closest_factors
    rw [hexact, ha]
  rw [hcf]
  have hale : a * a ≤ n := by
    calc a * a ≤ intSqrt n * intSqrt n := Nat.mul_le_mul hask hask
    _ ≤ n := intSqrt_sq_le n
  have haleb : a ≤ n / a := (Nat.le_div_iff_mul_le (by omega)).2 hale
  refine ⟨hmul, haleb, ?_⟩
  intro c d hcd
  -- reduce to the case c ≤ d
  have key : ∀ c d : Nat, c * d = n → c ≤ d → n / a - a ≤ d - c := by
    intro c d hcd hcle
    have hc1 : 1 ≤ c := by
      rcases Nat.eq_zero_or_pos c with h0 | h1
      · subst h0; simp at hcd; omega
      · exact h1
    have hcsq : c * c ≤ n := by
      calc c * c ≤ c * d := Nat.mul_le_mul_left c hcle
      _ = n := hcd
    have hcsqrt : c ≤ intSqrt n := le_intSqrt hcsq
    have hcdvd : n % c = 0 := by
      have hdv : c ∣ n := ⟨d, hcd.symm⟩
      exact Nat.dvd_iff_mod_eq_zero.mp hdv
    -- c is a divisor of n with c ≤ sqrt n, so c ≤ a by maximality
    have hca : c ≤ a := by
      by_contra hlt
      push_neg at hlt
      exact findFactorDown_maximal ha hcdvd hcsqrt hlt
    -- d = n / c ≥ n / a
    have hd : d = n / c := by
      rw [← hcd, Nat.mul_div_cancel_left d (by omega)]
    have hdiv : n / a ≤ n / c := Nat.div_le_div_left hca (by omega)
    omega
  rcases Nat.le_total c d with h | h
  · have hk := key c d hcd h
    rw [max_eq_right h, min_eq_left h]
    omega
  · have hk := key d c (by rw [Nat.mul_comm] at hcd; exact hcd) h
    rw [max_eq_left h, min_eq_right h]
    omega

/-- Witness for C9: the spec's concrete box-factoring scenarios (on which
the float square root is exact), and the amended theorem applied at
`N = 12` with both hypotheses discharged concretely. -/
theorem closest_factors_spec_exact_sqrt_witness :
    closest_factors 12 = (3, 4) ∧ closest_factors 9 = (3, 3) ∧
    closest_factors 1 = (1, 1) ∧ floatSqrtInt 12 = intSqrt 12 ∧
    ((closest_factors 12).1 * (closest_factors 12).2 = 12 ∧
     (closest_factors 12).1 ≤ (closest_factors 12).2 ∧
     ∀ c d : Nat, c * d = 12 →
       (closest_factors 12).2 - (closest_factors 12).1 ≤ max c d - min c d) :=
  ⟨by decide, by decide, by decide, by decide,
    closest_factors_spec_exact_sqrt 12 (by decide) (by decide)⟩

/-! ### The sort: permutation and sortedness -/

theorem strLeAux_total (as bs : List Char) :
    strLeAux as bs = true ∨ strLeAux bs as = true := by
  induction as generalizing bs with
  | nil => exact Or.inl rfl
  | cons a as ih =>
    cases bs with
    | nil => exact Or.inr rfl
    | cons b bs =>
      unfold strLeAux
      by_cases h1 : charLt a b = true
      · exact Or.inl (by simp [h1])
      · by_cases h2 : charLt b a = true
        · exact Or.inr (by simp [h2])
        · simpa [h1, h2] using ih bs

theorem strLeAux_trans {as bs cs : List Char} (h1 : strLeAux as bs = true)
    (h2 : strLeAux bs cs = true) : strLeAux as cs = true := by
  induction as generalizing bs cs with
  | nil => rfl
  | cons a as ih =>
    cases bs with
    | nil => simp [strLeAux] at h1
    | cons b bs =>
      cases cs with
      | nil => simp [strLeAux] at h2
      | cons c cs =>
        rw [strLeAux] at h1 h2 ⊢
        by_cases hab : a.toNat < b.toNat
        · by_cases hbc : b.toNat < c.toNat
          · simp [charLt, show a.toNat < c.toNat by omega]
          · by_cases hcb : c.toNat < b.toNat
            · simp [charLt, hbc, hcb] at h2
            · simp [charLt, show a.toNat < c.toNat by omega]
        · by_cases hba : b.toNat < a.toNat
          · simp [charLt, hab, hba] at h1
          · simp [charLt, hab, hba] at h1
            by_cases hbc : b.toNat < c.toNat
            · simp [charLt, show a.toNat < c.toNat by omega]
            · by_cases hcb : c.toNat < b.toNat
              · simp [charLt, hbc, hcb] at h2
              · simp [charLt, hbc, hcb] at h2
                simp [charLt, show ¬a.toNat < c.toNat by omega,
                  show ¬c.toNat < a.toNat by omega]
                exact ih h1 h2

theorem strLe_total (a b : String) : strLe a b = true ∨ strLe b a = true :=
  strLeAux_total a.data b.data

theorem strLe_trans {a b c : String} (h1 : strLe a b = true) (h2 : strLe b c = true) :
    strLe a c = true :=
  strLeAux_trans h1 h2

theorem perm_insertSorted (x : String) (l : List String) :
    (insertSorted x l).Perm (x :: l) := by
  induction l with
  | nil => rfl
  | cons y ys ih =>
    rw [insertSorted]
    by_cases h : strLe x y = true
    · simp [h]
    · simp only [h, if_false, Bool.false_eq_true]
      exact (ih.cons y).trans (List.Perm.swap x y ys)

theorem perm_sortSymbols (l : List String) : (sortSymbols l).Perm l := by
  induction l with
  | nil => rfl
  | cons x xs ih =>
    rw [sortSymbols]
    exact (perm_insertSorted x (sortSymbols xs)).trans (ih.cons x)

theorem mem_sortSymbols {a : String} {l : List String} :
    a ∈ sortSymbols l ↔ a ∈ l :=
  (perm_sortSymbols l).mem_iff

theorem length_sortSymbols (l : List String) : (sortSymbols l).length = l.length :=
  (perm_sortSymbols l).length_eq

theorem pairwise_insertSorted (x : String) {l : List String}
    (h : l.Pairwise fun a b => strLe a b = true) :
    (insertSorted x l).Pairwise fun a b => strLe a b = true := by
  induction l with
  | nil => simp [insertSorted]
  | cons y ys ih =>
    rw [insertSorted]
    rw [List.pairwise_cons] at h
    by_cases hxy : strLe x y = true
    · simp only [hxy, if_true]
      rw [List.pairwise_cons]
      refine ⟨?_, List.Pairwise.cons h.1 h.2⟩
      intro z hz
      rcases List.mem_cons.1 hz with rfl | hz
      · exact hxy
      · exact strLe_trans hxy (h.1 z hz)
    · rw [if_neg hxy, List.pairwise_cons]
      refine ⟨?_, ih h.2⟩
      intro z hz
      rcases List.mem_cons.1 ((perm_insertSorted x ys).subset hz) with rfl | hmem
      · rcases strLe_total z y with ht | ht
        · exact absurd ht hxy
        · exact ht
      · exact h.1 z hmem

theorem pairwise_sortSymbols (l : List String) :
    (sortSymbols l).Pairwise fun a b => strLe a b = true := by
  induction l with
  | nil => simp [sortSymbols]
  | cons x xs ih =>
    rw [sortSymbols]
    exact pairwise_insertSorted x ih

/-! ### List helper lemmas -/

theorem getD_modify_ne {α : Type} (l : List α) (f : α → α) {n m : Nat}
    (h : n ≠ m) (d : α) : (l.modify f n).getD m d = l.getD m d := by
  rw [List.getD_eq_getElem?_getD, List.getD_eq_getElem?_getD, List.getElem?_modify]
  cases l[m]? <;> simp [h]

theorem getD_modify_self {α : Type} (l : List α) (f : α → α) {n : Nat}
    (h : n < l.length) (d : α) : (l.modify f n).getD n d = f (l.getD n d) := by
  rw [List.getD_eq_getElem?_getD, List.getD_eq_getElem?_getD, List.getElem?_modify,
    List.getElem?_eq_getElem h]
  simp

theorem getD_modify_oob {α : Type} (l : List α) (f : α → α) {n : Nat}
    (h : l.length ≤ n) (d : α) : (l.modify f n).getD n d = l.getD n d := by
  rw [List.getD_eq_getElem?_getD, List.getD_eq_getElem?_getD, List.getElem?_modify,
    List.getElem?_eq_none (by simpa using h)]
  simp

theorem map_modify_congr {α β : Type} (l : List α) (f : α → α) (g : α → β)
    (hfg : ∀ a, g (f a) = g a) (n : Nat) :
    (l.modify f n).map g = l.map g := by
  apply List.ext_getElem?
  intro i
  rw [List.getElem?_map, List.getElem?_map, List.getElem?_modify]
  cases l[i]? with
  | none => simp
  | some a =>
    by_cases h : n = i <;> simp [h, hfg]

theorem getD_map_dflt {α β : Type} (f : α → β) (l : List α) (n : Nat) (d : α) :
    (l.map f).getD n (f d) = f (l.getD n d) := by
  rw [List.getD_eq_getElem?_getD, List.getD_eq_getElem?_getD, List.getElem?_map]
  cases l[n]? <;> simp

/-! ### Board accessor lemmas -/

theorem cellAt_setSymbol_ne (b : Board) {p q : Nat × Nat} (s : Option String)
    (h : q ≠ p) : (b.setSymbol p s).cellAt q.1 q.2 = b.cellAt q.1 q.2 := by
  rcases p with ⟨pr, pc⟩
  rcases q with ⟨qr, qc⟩
  unfold Board.setSymbol Board.cellAt
  simp only
  by_cases hr : pr = qr
  · subst hr
    have hc : pc ≠ qc := by
      intro hc
      exact h (by simp [hc])
    by_cases hlen : pr < b.cells.length
    · rw [getD_modify_self b.cells _ hlen]
      exact getD_modify_ne _ _ hc _
    · rw [getD_modify_oob b.cells _ (by omega)]
  · rw [getD_modify_ne b.cells _ hr]

theorem symbolAt_setSymbol_ne (b : Board) {p q : Nat × Nat} (s : Option String)
    (h : q ≠ p) : (b.setSymbol p s).symbolAt q = b.symbolAt q := by
  unfold Board.symbolAt
  rw [cellAt_setSymbol_ne b s h]

theorem cellAt_setSymbol_self (b : Board) {p : Nat × Nat} (s : Option String)
    (h : b.inRange p) :
    (b.setSymbol p s).cellAt p.1 p.2 = { b.cellAt p.1 p.2 with symbol := s } := by
  obtain ⟨h1, h2⟩ := h
  unfold Board.setSymbol Board.cellAt
  simp only [getD_modify_self b.cells _ h1]
  exact getD_modify_self _ _ h2 _

theorem symbolAt_setSymbol_self (b : Board) {p : Nat × Nat} (s : Option String)
    (h : b.inRange p) : (b.setSymbol p s).symbolAt p = s := by
  unfold Board.symbolAt
  rw [cellAt_setSymbol_self b s h]

theorem stripSymbols_setSymbol (b : Board) (p : Nat × Nat) (s : Option String) :
    (b.setSymbol p s).stripSymbols = b.stripSymbols := by
  unfold Board.setSymbol Board.stripSymbols
  simp only
  congr 1
  apply map_modify_congr
  intro rw
  apply map_modify_congr
  intro cell
  rfl

/-! ### Construction: C5 and C7 -/

theorem set_initial_state_ok {b0 b : Board} {st : List String}
    (h : b0.set_initial_state st = .ok b) :
    b.symbols = b0.symbols ∧ b.empty_symbol = b0.empty_symbol ∧
    b.size = b0.size ∧ b.num_bands = b0.num_bands ∧ b.num_stacks = b0.num_stacks ∧
    b.cells = assignRows b0.empty_symbol b0.cells st ∧
    st.length = b0.size * b0.size ∧
    ∀ t ∈ st, t ∈ b0.symbols ∨ t = b0.empty_symbol := by
  unfold Board.set_initial_state at h
  by_cases h1 : st.length ≠ b0.size * b0.size
  · rw [if_pos h1] at h
    exact absurd h (by simp)
  · rw [if_neg h1] at h
    by_cases h2 : (st.any fun t => !(b0.symbols.contains t || t == b0.empty_symbol)) = true
    · rw [if_pos h2] at h
      exact absurd h (by simp)
    · rw [if_neg h2] at h
      injection h with h
      subst h
      refine ⟨rfl, rfl, rfl, rfl, rfl, rfl, by omega, ?_⟩
      intro t ht
      by_contra hcon
      push_neg at hcon
      apply h2
      rw [List.any_eq_true]
      refine ⟨t, ht, ?_⟩
      have hc1 : b0.symbols.contains t = false := by
        rw [← Bool.not_eq_true, List.elem_iff]
        exact hcon.1
      have hc2 : (t == b0.empty_symbol) = false := by
        rw [beq_eq_false_iff_ne]
        exact hcon.2
      rw [hc1, hc2]
      rfl

theorem mkBoard_ok_fields {symbols : List String}
    {initial_state : Option (List String)} {empty_symbol : String} {b : Board}
    (h : mkBoard symbols initial_state empty_symbol = .ok b) :
    b.symbols = sortSymbols symbols ∧ b.empty_symbol = empty_symbol ∧
    b.size = symbols.length ∧
    b.num_bands = (closest_factors symbols.length).1 ∧
    b.num_stacks = (closest_factors symbols.length).2 := by
  have hlen := length_sortSymbols symbols
  unfold mkBoard at h
  by_cases hmem : empty_symbol ∈ sortSymbols symbols
  · rw [if_pos hmem] at h
    exact absurd h (by simp)
  · rw [if_neg hmem] at h
    cases initial_state with
    | none =>
      dsimp only at h
      injection h with h
      subst h
      exact ⟨rfl, rfl, by simp [mkBoardCore, hlen], by simp [mkBoardCore, hlen],
        by simp [mkBoardCore, hlen]⟩
    | some st =>
      dsimp only at h
      by_cases hemp : st.isEmpty
      · rw [if_pos hemp] at h
        injection h with h
        subst h
        exact ⟨rfl, rfl, by simp [mkBoardCore, hlen], by simp [mkBoardCore, hlen],
          by simp [mkBoardCore, hlen]⟩
      · rw [if_neg hemp] at h
        obtain ⟨e1, e2, e3, e4, e5, -, -, -⟩ := set_initial_state_ok h
        refine ⟨by rw [e1]; simp [mkBoardCore], by rw [e2]; simp [mkBoardCore], ?_, ?_, ?_⟩
        · rw [e3]
          simp [mkBoardCore, hlen]
        · rw [e4]
          simp [mkBoardCore, hlen]
        · rw [e5]
          simp [mkBoardCore, hlen]

/-- C5 counterexample: the claim requires construction to fail for *every*
supplied initial state whose length differs from `N*N`, including an empty
sequence; but `if initial_state:` is falsy on an empty sequence, so
construction with alphabet `["1"]` (`N*N = 1`) and initial state `[]`
succeeds. -/
theorem mkBoard_empty_initial_state_cex :
    (mkBoard ["1"] (some []) "0").isOk = true ∧
    (([] : List String)).length ≠ 1 * 1 :=
  ⟨by decide, by decide⟩

/-- C5 (amended): construction fails if and only if the empty marker is an
alphabet symbol, or a *non-empty* initial state is supplied whose length
differs from `N*N` or which contains a token that is neither an alphabet
symbol nor the empty marker; an empty supplied initial-state sequence is
ignored (construction succeeds).  On failure no grid is produced. -/
theorem mkBoard_error_iff (symbols : List String)
    (initial_state : Option (List String)) (empty_symbol : String) :
    (mkBoard symbols initial_state empty_symbol).isOk = false ↔
      (empty_symbol ∈ symbols ∨
       ∃ st, initial_state = some st ∧ st ≠ [] ∧
         (st.length ≠ symbols.length * symbols.length ∨
          ∃ t ∈ st, t ∉ symbols ∧ t ≠ empty_symbol)) := by
  unfold mkBoard
  by_cases hmem : empty_symbol ∈ sortSymbols symbols
  · rw [if_pos hmem]
    simp [Except.isOk, Except.toBool, mem_sortSymbols.1 hmem]
  · rw [if_neg hmem]
    have hmem' : empty_symbol ∉ symbols := fun hc => hmem (mem_sortSymbols.2 hc)
    cases initial_state with
    | none => simp [Except.isOk, Except.toBool, hmem']
    | some st =>
      dsimp only
      by_cases hemp : st.isEmpty
      · rw [if_pos hemp]
        have hst : st = [] := List.isEmpty_iff.1 hemp
        subst hst
        simp [Except.isOk, Except.toBool, hmem']
      · rw [if_neg hemp]
        have hst : st ≠ [] := by
          intro hc
          subst hc
          exact hemp rfl
        unfold Board.set_initial_state
        have hsize : (mkBoardCore (sortSymbols symbols) empty_symbol).size
            = symbols.length := by
          simp [mkBoardCore, length_sortSymbols]
        by_cases h1 : st.length ≠
            (mkBoardCore (sortSymbols symbols) empty_symbol).size *
            (mkBoardCore (sortSymbols symbols) empty_symbol).size
        · rw [if_pos h1]
          rw [hsize] at h1
          simp only [Except.isOk, Except.toBool]
          constructor
          · intro _
            exact Or.inr ⟨st, rfl, hst, Or.inl h1⟩
          · intro _
            trivial
        · rw [if_neg h1]
          rw [hsize] at h1
          push_neg at h1
          by_cases h2 : (st.any fun t =>
              !((mkBoardCore (sortSymbols symbols) empty_symbol).symbols.contains t ||
                t == (mkBoardCore (sortSymbols symbols) empty_symbol).empty_symbol)) = true
          · rw [if_pos h2]
            simp only [Except.isOk, Except.toBool]
            rw [List.any_eq_true] at h2
            obtain ⟨t, ht, hpred⟩ := h2
            have hbad : t ∉ symbols ∧ t ≠ empty_symbol := by
              constructor
              · intro hc
                have hcc : (mkBoardCore (sortSymbols symbols) empty_symbol).symbols.contains t
                    = true := by
                  rw [List.elem_iff]
                  exact mem_sortSymbols.2 hc
                rw [hcc] at hpred
                simp at hpred
              · intro hc
                have hcc : (t == (mkBoardCore (sortSymbols symbols) empty_symbol).empty_symbol)
                    = true := by
                  rw [beq_iff_eq]
                  exact hc
                rw [hcc] at hpred
                simp at hpred
            constructor
            · intro _
              exact Or.inr ⟨st, rfl, hst, Or.inr ⟨t, ht, hbad⟩⟩
            · intro _
              trivial
          · rw [if_neg h2]
            simp only [Except.isOk, Except.toBool]
            rw [Bool.not_eq_true, List.any_eq_false] at h2
            constructor
            · intro hc
              simp at hc
            · rintro (hc | ⟨st', hst', hne, hbad | ⟨t, ht, hmem2, hne2⟩⟩)
              · exact absurd hc hmem'
              · injection hst' with hst'
                subst hst'
                exact absurd h1 hbad
              · injection hst' with hst'
                subst hst'
                have := h2 t ht
                have hcontains : (mkBoardCore (sortSymbols symbols) empty_symbol).symbols.contains t
                    = false := by
                  by_contra hcc
                  rw [Bool.not_eq_false, List.elem_iff] at hcc
                  exact hmem2 (mem_sortSymbols.1 hcc)
                have hbeq : (t == (mkBoardCore (sortSymbols symbols) empty_symbol).empty_symbol)
                    = false := by
                  rw [beq_eq_false_iff_ne]
                  exact hne2
                rw [hcontains, hbeq] at this
                simp at this

/-- C7 counterexample: the claim requires the alphabet to be deduplicated
and `N` to count distinct symbols, but construction with `["1", "1"]` keeps
the duplicate (`symbols = ["1", "1"]`, `size = 2`), while the sorted
deduplicated alphabet would be `["1"]` with one distinct symbol. -/
theorem mkBoard_duplicate_symbols_cex :
    Except.map (fun b => (b.symbols, b.size)) (mkBoard ["1", "1"] none "0") =
      .ok (["1", "1"], 2) ∧
    (["1", "1"] : List String).dedup = ["1"] :=
  ⟨by decide, by decide⟩

/-- C7 (amended): construction normalizes the alphabet to the *sorted* (but
not deduplicated) sequence of the symbols' string forms — a sorted
permutation of the input — and the grid dimension `N` equals the total
number of input symbols, duplicates included. -/
theorem mkBoard_symbols_sorted_with_duplicates {symbols : List String}
    {initial_state : Option (List String)} {empty_symbol : String} {b : Board}
    (h : mkBoard symbols initial_state empty_symbol = .ok b) :
    b.symbols = sortSymbols symbols ∧ b.symbols.Perm symbols ∧
    (b.symbols.Pairwise fun x y => strLe x y = true) ∧
    b.size = symbols.length := by
  obtain ⟨h1, -, h3, -, -⟩ := mkBoard_ok_fields h
  exact ⟨h1, h1 ▸ perm_sortSymbols symbols, h1 ▸ pairwise_sortSymbols symbols, h3⟩

/-- Witness for C7's amended claim: constructing with `["2", "1", "1"]`
yields the sorted-with-duplicates alphabet `["1", "1", "2"]` and `N = 3`. -/
theorem mkBoard_symbols_sorted_with_duplicates_witness :
    mkBoard ["2", "1", "1"] none "0" = .ok wB211 ∧
    wB211.symbols = ["1", "1", "2"] ∧
    (wB211.symbols = sortSymbols ["2", "1", "1"] ∧
     wB211.symbols.Perm ["2", "1", "1"] ∧
     (wB211.symbols.Pairwise fun x y => strLe x y = true) ∧
     wB211.size = 3) :=
  ⟨by decide, by decide, by
    have hmk : mkBoard ["2", "1", "1"] none "0" = .ok wB211 := by decide
    have hres := mkBoard_symbols_sorted_with_duplicates hmk
    simpa using hres⟩

/-! ### Well-formedness and group membership -/

theorem closest_factors_mul (n : Nat) :
    (closest_factors n).1 * (closest_factors n).2 = n := by
  unfold closest_factors
  cases hf : findFactorDown n (floatSqrtInt n) with
  | none => simp
  | some i =>
    obtain ⟨hdvd, h1, -⟩ := findFactorDown_eq_some hf
    simpa using Nat.mul_div_cancel' (Nat.dvd_of_mod_eq_zero hdvd)

theorem mem_iff_getD {α : Type} (l : List α) (d : α) (q : α) :
    q ∈ l ↔ ∃ i, i < l.length ∧ l.getD i d = q := by
  rw [List.mem_iff_getElem]
  constructor
  · rintro ⟨i, hi, hq⟩
    refine ⟨i, hi, ?_⟩
    rw [List.getD_eq_getElem?_getD, List.getElem?_eq_getElem hi]
    exact hq
  · rintro ⟨i, hi, hq⟩
    refine ⟨i, hi, ?_⟩
    rw [List.getD_eq_getElem?_getD, List.getElem?_eq_getElem hi] at hq
    exact hq

theorem initialize_cells_length (size nb ns : Nat) :
    (initialize_cells size nb ns).length = size := by
  simp [initialize_cells]

theorem initialize_cells_row_length (size nb ns : Nat) {r : Nat} (hr : r < size) :
    ((initialize_cells size nb ns).getD r []).length = size := by
  unfold initialize_cells
  rw [List.getD_eq_getElem?_getD, List.getElem?_map,
    List.getElem?_eq_getElem (by simpa using hr)]
  simp

theorem getD_map_range {α : Type} (f : Nat → α) {n i : Nat} (h : i < n) (d : α) :
    ((List.range n).map f).getD i d = f i := by
  rw [List.getD_eq_getElem?_getD, List.getElem?_map,
    List.getElem?_eq_getElem (by simpa using h)]
  simp

theorem initialize_cells_cellAt (size nb ns : Nat) {r c : Nat}
    (hr : r < size) (hc : c < size) :
    ((initialize_cells size nb ns).getD r []).getD c dfltCell =
      { row := r, col := c, box := boxIdOf nb ns r c,
        symbol := none, candidates := [] } := by
  unfold initialize_cells
  rw [getD_map_range _ hr, getD_map_range _ hc]

theorem mkBoardCore_WF (ss : List String) (e : String) : (mkBoardCore ss e).WF := by
  refine ⟨initialize_cells_length _ _ _, ?_, ?_, closest_factors_mul _⟩
  · intro r hr
    exact initialize_cells_row_length _ _ _ hr
  · intro r hr c hc
    have h := initialize_cells_cellAt ss.length (closest_factors ss.length).1
      (closest_factors ss.length).2 (r := r) (c := c) hr hc
    unfold Board.cellAt
    rw [show (mkBoardCore ss e).cells = initialize_cells ss.length
      (closest_factors ss.length).1 (closest_factors ss.length).2 from rfl, h]
    exact ⟨rfl, rfl, rfl⟩

theorem cellAt_setSymbol_self' (b : Board) {r c : Nat} (s : Option String)
    (h : b.inRange (r, c)) :
    (b.setSymbol (r, c) s).cellAt r c = { b.cellAt r c with symbol := s } :=
  cellAt_setSymbol_self b s h

theorem cellAt_setSymbol_ne' (b : Board) {p : Nat × Nat} {r c : Nat}
    (s : Option String) (h : ((r, c) : Nat × Nat) ≠ p) :
    (b.setSymbol p s).cellAt r c = b.cellAt r c :=
  cellAt_setSymbol_ne b s h

theorem WF_setSymbol {b : Board} (hwf : b.WF) (p : Nat × Nat) (s : Option String) :
    (b.setSymbol p s).WF := by
  obtain ⟨h1, h2, h3, h4⟩ := hwf
  refine ⟨?_, ?_, ?_, h4⟩
  · show (b.cells.modify _ p.1).length = b.size
    rw [List.length_modify]
    exact h1
  · intro r hr
    show ((b.cells.modify _ p.1).getD r []).length = b.size
    by_cases hpr : p.1 = r
    · subst hpr
      by_cases hlen : p.1 < b.cells.length
      · rw [getD_modify_self b.cells _ hlen, List.length_modify]
        exact h2 p.1 hr
      · rw [getD_modify_oob b.cells _ (by omega)]
        exact h2 p.1 hr
    · rw [getD_modify_ne b.cells _ hpr]
      exact h2 r hr
  · intro r hr c hc
    have hsz : (b.setSymbol p s).size = b.size := rfl
    rw [hsz] at hr hc
    by_cases hpq : ((r, c) : Nat × Nat) = p
    · have hin : b.inRange (r, c) := by
        refine ⟨?_, ?_⟩
        · show r < b.cells.length
          omega
        · show c < (b.cells.getD r []).length
          have := h2 r hr
          omega
      rw [← hpq]
      rw [cellAt_setSymbol_self' b s hin]
      exact h3 r hr c hc
    · rw [cellAt_setSymbol_ne' b s hpq]
      exact h3 r hr c hc

theorem mem_rowCells_iff {b : Board} (hwf : b.WF) {r0 : Nat} (hr : r0 < b.size)
    {q : Cell} :
    q ∈ b.rowCells r0 ↔ ∃ c', c' < b.size ∧ b.cellAt r0 c' = q := by
  unfold Board.rowCells
  rw [mem_iff_getD _ dfltCell]
  rw [hwf.2.1 r0 hr]
  rfl

theorem cells_getD_eq {b : Board} {r : Nat} (hr : r < b.cells.length) :
    b.cells.getD r [] = b.cells[r] := by
  rw [List.getD_eq_getElem?_getD, List.getElem?_eq_getElem hr]
  rfl

theorem mem_colCells_iff {b : Board} (hwf : b.WF) {c0 : Nat} (hc : c0 < b.size)
    {q : Cell} :
    q ∈ b.colCells c0 ↔ ∃ r', r' < b.size ∧ b.cellAt r' c0 = q := by
  unfold Board.colCells
  rw [List.mem_filterMap]
  constructor
  · rintro ⟨rw0, hrw, hget⟩
    rw [List.mem_iff_getElem] at hrw
    obtain ⟨r', hr', heq⟩ := hrw
    have hr'' : r' < b.size := by rw [← hwf.1]; exact hr'
    refine ⟨r', hr'', ?_⟩
    unfold Board.cellAt
    rw [cells_getD_eq hr', heq]
    rw [List.get?_eq_getElem?] at hget
    rw [List.getD_eq_getElem?_getD, hget]
    rfl
  · rintro ⟨r', hr', hq⟩
    have hr'' : r' < b.cells.length := by rw [hwf.1]; exact hr'
    refine ⟨b.cells[r'], List.getElem_mem hr'', ?_⟩
    have hlen : c0 < b.cells[r'].length := by
      have h2 := hwf.2.1 r' hr'
      rw [cells_getD_eq hr''] at h2
      omega
    rw [List.get?_eq_getElem?, List.getElem?_eq_getElem hlen]
    rw [← hq]
    unfold Board.cellAt
    rw [cells_getD_eq hr'']
    rw [List.getD_eq_getElem?_getD, List.getElem?_eq_getElem hlen]
    rfl

theorem mem_boxCells_iff {b : Board} (hwf : b.WF) {bx : Nat} {q : Cell} :
    q ∈ b.boxCells bx ↔
      (∃ r' c', r' < b.size ∧ c' < b.size ∧ b.cellAt r' c' = q) ∧ q.box = bx := by
  unfold Board.boxCells
  rw [List.mem_filter]
  have hmem : q ∈ b.cells.flatten ↔
      ∃ r' c', r' < b.size ∧ c' < b.size ∧ b.cellAt r' c' = q := by
    rw [List.mem_flatten]
    constructor
    · rintro ⟨rw0, hrw, hq⟩
      rw [List.mem_iff_getElem] at hrw
      obtain ⟨r', hr', heq⟩ := hrw
      have hr'' : r' < b.size := by rw [← hwf.1]; exact hr'
      rw [mem_iff_getD _ dfltCell] at hq
      obtain ⟨c', hc', hqc⟩ := hq
      have hrow : b.cells.getD r' [] = rw0 := by rw [cells_getD_eq hr', heq]
      have hclen : c' < b.size := by
        have h2 := hwf.2.1 r' hr''
        rw [hrow] at h2
        omega
      refine ⟨r', c', hr'', hclen, ?_⟩
      unfold Board.cellAt
      rw [hrow]
      exact hqc
    · rintro ⟨r', c', hr', hc', hq⟩
      have hr'' : r' < b.cells.length := by rw [hwf.1]; exact hr'
      refine ⟨b.cells[r'], List.getElem_mem hr'', ?_⟩
      rw [← hq]
      unfold Board.cellAt
      rw [cells_getD_eq hr'']
      have hlen : c' < b.cells[r'].length := by
        have h2 := hwf.2.1 r' hr'
        rw [cells_getD_eq hr''] at h2
        omega
      rw [List.getD_eq_getElem?_getD, List.getElem?_eq_getElem hlen]
      exact List.getElem_mem hlen
  rw [hmem]
  constructor
  · rintro ⟨hq, hbox⟩
    exact ⟨hq, by simpa using hbox⟩
  · rintro ⟨hq, hbox⟩
    exact ⟨hq, by simpa using hbox⟩

/-! ### C8: legal candidates -/

/-- C8: the legal-candidate set of a cell is the set of alphabet symbols not
assigned to any cell sharing the cell's row, column, or box group; in
particular the cell's own current symbol is never a candidate — candidates
are strictly alternative values. -/
theorem calculate_cell_candidates_spec (b : Board) (r c : Nat)
    (hwf : b.WF) (hr : r < b.size) (hc : c < b.size) :
    (∀ s : String, s ∈ b.calculate_cell_candidates (b.cellAt r c) ↔
      (s ∈ b.symbols ∧ ∀ r' c', r' < b.size → c' < b.size →
        sameGroup b.num_bands b.num_stacks r c r' c' →
        b.symbolAt (r', c') ≠ some s)) ∧
    (∀ v : String, b.symbolAt (r, c) = some v →
      v ∉ b.calculate_cell_candidates (b.cellAt r c)) := by
  obtain ⟨hrow, hcol, hbox⟩ := hwf.2.2.1 r hr c hc
  have main : ∀ s : String, s ∈ b.calculate_cell_candidates (b.cellAt r c) ↔
      (s ∈ b.symbols ∧ ∀ r' c', r' < b.size → c' < b.size →
        sameGroup b.num_bands b.num_stacks r c r' c' →
        b.symbolAt (r', c') ≠ some s) := by
    intro s
    unfold Board.calculate_cell_candidates
    rw [List.mem_filter, List.mem_dedup]
    constructor
    · rintro ⟨hmem, hpred⟩
      simp only [Bool.and_eq_true, List.all_eq_true] at hpred
      obtain ⟨⟨hprow, hpcol⟩, hpbox⟩ := hpred
      refine ⟨hmem, ?_⟩
      intro r' c' hr' hc' hshare hsym
      rcases hshare with hsr | hsc | hsb
      · subst hsr
        have hq : b.cellAt r c' ∈ b.rowCells (b.cellAt r c).row := by
          rw [hrow, mem_rowCells_iff hwf hr]
          exact ⟨c', hc', rfl⟩
        have := hprow _ hq
        rw [show (b.cellAt r c').symbol = b.symbolAt (r, c') from rfl, hsym] at this
        simp at this
      · subst hsc
        have hq : b.cellAt r' c ∈ b.colCells (b.cellAt r c).col := by
          rw [hcol, mem_colCells_iff hwf hc]
          exact ⟨r', hr', rfl⟩
        have := hpcol _ hq
        rw [show (b.cellAt r' c).symbol = b.symbolAt (r', c) from rfl, hsym] at this
        simp at this
      · have hq : b.cellAt r' c' ∈ b.boxCells (b.cellAt r c).box := by
          rw [hbox, mem_boxCells_iff hwf]
          refine ⟨⟨r', c', hr', hc', rfl⟩, ?_⟩
          obtain ⟨-, -, hbox'⟩ := hwf.2.2.1 r' hr' c' hc'
          rw [hbox']
          exact hsb.symm
        have := hpbox _ hq
        rw [show (b.cellAt r' c').symbol = b.symbolAt (r', c') from rfl, hsym] at this
        simp at this
    · rintro ⟨hmem, hall⟩
      refine ⟨hmem, ?_⟩
      simp only [Bool.and_eq_true, List.all_eq_true]
      refine ⟨⟨?_, ?_⟩, ?_⟩
      · intro q hq
        rw [hrow, mem_rowCells_iff hwf hr] at hq
        obtain ⟨c', hc', hq⟩ := hq
        have := hall r c' hr hc' (Or.inl rfl)
        rw [← hq]
        simpa using this
      · intro q hq
        rw [hcol, mem_colCells_iff hwf hc] at hq
        obtain ⟨r', hr', hq⟩ := hq
        have := hall r' c hr' hc (Or.inr (Or.inl rfl))
        rw [← hq]
        simpa using this
      · intro q hq
        rw [hbox, mem_boxCells_iff hwf] at hq
        obtain ⟨⟨r', c', hr', hc', hq⟩, hqbox⟩ := hq
        obtain ⟨-, -, hbox'⟩ := hwf.2.2.1 r' hr' c' hc'
        have hsb : boxIdOf b.num_bands b.num_stacks r c =
            boxIdOf b.num_bands b.num_stacks r' c' := by
          rw [← hbox', hq, hqbox]
        have := hall r' c' hr' hc' (Or.inr (Or.inr hsb))
        rw [← hq]
        simpa using this
  refine ⟨main, ?_⟩
  intro v hv hmem
  have := ((main v).1 hmem).2 r c hr hc (Or.inl rfl)
  exact this hv

/-- Witness for C8 on a 2×2 board with `(0, 0)` holding `"1"`: the
characterization at cell `(0, 1)`, and `"1"` is not its own alternative at
`(0, 0)`. -/
theorem calculate_cell_candidates_spec_witness :
    wBoard2a.WF ∧
    (("1" : String) ∈ wBoard2a.calculate_cell_candidates (wBoard2a.cellAt 0 1) ↔
      (("1" : String) ∈ wBoard2a.symbols ∧ ∀ r' c', r' < wBoard2a.size →
        c' < wBoard2a.size →
        sameGroup wBoard2a.num_bands wBoard2a.num_stacks 0 1 r' c' →
        wBoard2a.symbolAt (r', c') ≠ some "1")) ∧
    ("1" : String) ∉ wBoard2a.calculate_cell_candidates (wBoard2a.cellAt 0 0) :=
  ⟨by decide,
   (calculate_cell_candidates_spec wBoard2a 0 1 (by decide) (by decide) (by decide)).1 "1",
   (calculate_cell_candidates_spec wBoard2a 0 0 (by decide) (by decide)
     (by decide)).2 "1" (by decide)⟩

/-! ### C6: serialization round-trip -/

theorem assignRow_str (e : String) (row : List Cell) (st : List String)
    (h : row.length ≤ st.length) :
    ((assignRow e row st).1.map fun cell => cell.symbol.getD e) =
      st.take row.length ∧
    (assignRow e row st).2 = st.drop row.length := by
  induction row generalizing st with
  | nil => simp [assignRow]
  | cons c cs ih =>
    cases st with
    | nil => simp at h
    | cons t ts =>
      rw [assignRow]
      simp only [List.length_cons, List.take_succ_cons, List.drop_succ_cons,
        List.map_cons]
      have hle : cs.length ≤ ts.length := by
        simp only [List.length_cons] at h
        omega
      obtain ⟨ih1, ih2⟩ := ih ts hle
      refine ⟨?_, ih2⟩
      rw [ih1]
      congr 1
      by_cases ht : t = e
      · simp [ht]
      · simp [ht]

theorem assignRows_str (e : String) (cells : List (List Cell)) (st : List String)
    (h : (cells.map List.length).sum = st.length) :
    ((assignRows e cells st).flatten.map fun cell => cell.symbol.getD e) = st := by
  induction cells generalizing st with
  | nil =>
    simp only [List.map_nil, List.sum_nil] at h
    have : st = [] := List.eq_nil_of_length_eq_zero h.symm
    simp [assignRows, this]
  | cons row rows ih =>
    simp only [List.map_cons, List.sum_cons] at h
    have hle : row.length ≤ st.length := by omega
    rw [assignRows]
    simp only [List.flatten_cons, List.map_append]
    obtain ⟨h1, h2⟩ := assignRow_str e row st hle
    rw [h1, h2]
    rw [ih (st.drop row.length) (by simp; omega)]
    exact List.take_append_drop _ _

theorem sum_map_const_range (n m : Nat) :
    ((List.range n).map fun _ => m).sum = n * m := by
  induction n with
  | zero => simp
  | succ k ih =>
    rw [List.range_succ]
    simp only [List.map_append, List.sum_append, List.map_cons, List.sum_cons,
      List.map_nil, List.sum_nil, ih]
    ring

theorem initialize_cells_lengths_sum (size nb ns : Nat) :
    ((initialize_cells size nb ns).map List.length).sum = size * size := by
  unfold initialize_cells
  rw [List.map_map]
  have hconst : (List.length ∘ fun row => (List.range size).map fun col =>
      ({ row := row, col := col, box := boxIdOf nb ns row col,
         symbol := none, candidates := [] } : Cell)) = fun _ => size :=
    funext fun r => by simp
  rw [hconst]
  exact sum_map_const_range size size

/-- C6: for every well-formed flat sequence `S` (length `N*N`, each token an
alphabet symbol or the empty marker), serializing the grid constructed with
initial state `S` yields `S` again, row-major. -/
theorem str_mkBoard_roundtrip (symbols : List String) (S : List String)
    (empty_symbol : String)
    (hempty : empty_symbol ∉ symbols)
    (hlen : S.length = symbols.length * symbols.length)
    (htok : ∀ t ∈ S, t ∈ symbols ∨ t = empty_symbol) :
    (mkBoard symbols (some S) empty_symbol).map Board.str = .ok S := by
  have hempty' : empty_symbol ∉ sortSymbols symbols :=
    fun hc => hempty (mem_sortSymbols.1 hc)
  have hslen := length_sortSymbols symbols
  unfold mkBoard
  rw [if_neg hempty']
  dsimp only
  by_cases hse : S.isEmpty
  · have hS : S = [] := List.isEmpty_iff.1 hse
    subst hS
    rw [if_pos hse]
    have hn : symbols.length = 0 := by
      have h0 : symbols.length * symbols.length = 0 := by simpa using hlen.symm
      rcases Nat.mul_eq_zero.1 h0 with h | h <;> exact h
    have hsym : symbols = [] := List.eq_nil_of_length_eq_zero hn
    subst hsym
    rfl
  · rw [if_neg hse]
    unfold Board.set_initial_state
    have hsize : (mkBoardCore (sortSymbols symbols) empty_symbol).size =
        symbols.length := by
      simp [mkBoardCore, hslen]
    rw [if_neg (by rw [hsize]; omega)]
    have hany : (S.any fun t =>
        !((mkBoardCore (sortSymbols symbols) empty_symbol).symbols.contains t ||
          t == (mkBoardCore (sortSymbols symbols) empty_symbol).empty_symbol))
        = false := by
      rw [List.any_eq_false]
      intro t ht
      rcases htok t ht with hmem | heq
      · have hcn : (mkBoardCore (sortSymbols symbols) empty_symbol).symbols.contains t
            = true := by
          rw [List.elem_iff]
          exact mem_sortSymbols.2 hmem
        rw [hcn]
        simp
      · have hbq : (t == (mkBoardCore (sortSymbols symbols) empty_symbol).empty_symbol)
            = true := by
          rw [beq_iff_eq]
          exact heq
        rw [hbq]
        simp
    rw [if_neg (by rw [hany]; simp)]
    simp only [Except.map]
    congr 1
    unfold Board.str
    show ((assignRows empty_symbol
      (initialize_cells (sortSymbols symbols).length
        (closest_factors (sortSymbols symbols).length).1
        (closest_factors (sortSymbols symbols).length).2) S).flatten.map
      fun cell => cell.symbol.getD empty_symbol) = S
    apply assignRows_str
    rw [initialize_cells_lengths_sum, hslen]
    omega

/-- Witness for C6: the well-formed sequence `["1", "0", "0", "2"]` over the
alphabet `["1", "2"]` round-trips through construction and serialization. -/
theorem str_mkBoard_roundtrip_witness :
    ("0" : String) ∉ (["1", "2"] : List String) ∧
    (["1", "0", "0", "2"] : List String).length =
      (["1", "2"] : List String).length * (["1", "2"] : List String).length ∧
    (∀ t ∈ (["1", "0", "0", "2"] : List String),
      t ∈ (["1", "2"] : List String) ∨ t = "0") ∧
    (mkBoard ["1", "2"] (some ["1", "0", "0", "2"]) "0").map Board.str =
      .ok ["1", "0", "0", "2"] :=
  ⟨by decide, by decide, by decide,
   str_mkBoard_roundtrip ["1", "2"] ["1", "0", "0", "2"] "0" (by decide) (by decide)
     (by decide)⟩

/-! ### Solver infrastructure: board update lemmas -/

theorem modify_oob_eq {α : Type} (f : α → α) {n : Nat} (l : List α)
    (h : l.length ≤ n) : l.modify f n = l := by
  apply List.ext_getElem?
  intro i
  rw [List.getElem?_modify]
  by_cases hi : n = i
  · subst hi
    rw [List.getElem?_eq_none (by simpa using h)]
    rfl
  · cases l[i]? <;> simp [hi]

theorem setSymbol_oob {b : Board} {p : Nat × Nat} (s : Option String)
    (h : ¬ b.inRange p) : b.setSymbol p s = b := by
  unfold Board.setSymbol
  have hcells : b.cells.modify
      (fun rw => rw.modify (fun cell => { cell with symbol := s }) p.2) p.1 =
      b.cells := by
    by_cases h1 : p.1 < b.cells.length
    · have h2 : (b.cells.getD p.1 []).length ≤ p.2 := by
        by_contra hc
        exact h ⟨h1, by omega⟩
      rw [cells_getD_eq h1] at h2
      apply List.ext_getElem?
      intro i
      rw [List.getElem?_modify]
      by_cases hi : p.1 = i
      · subst hi
        rw [List.getElem?_eq_getElem h1]
        simp only [Option.map_some]
        rw [modify_oob_eq _ _ h2]
        simp
      · cases b.cells[i]? <;> simp [hi]
    · exact modify_oob_eq _ _ (by omega)
  rw [hcells]

theorem candidatesAt_setSymbol (b : Board) (p : Nat × Nat) (s : Option String)
    (q : Nat × Nat) : (b.setSymbol p s).candidatesAt q = b.candidatesAt q := by
  by_cases hq : q = p
  · subst hq
    by_cases hin : b.inRange q
    · unfold Board.candidatesAt
      have := cellAt_setSymbol_self b (p := q) s hin
      rw [this]
    · rw [setSymbol_oob s hin]
  · unfold Board.candidatesAt
    rw [cellAt_setSymbol_ne b s hq]

theorem stripSymbols_cellAt (b : Board) (r c : Nat) :
    b.stripSymbols.cellAt r c = { b.cellAt r c with symbol := none } := by
  unfold Board.stripSymbols Board.cellAt
  simp only
  have h1 : (b.cells.map (fun rw => rw.map fun cell =>
      { cell with symbol := none })).getD r [] =
      (b.cells.getD r []).map fun cell => { cell with symbol := none } := by
    have := getD_map_dflt (fun rw : List Cell => rw.map fun cell =>
      { cell with symbol := none }) b.cells r []
    simpa using this
  rw [h1]
  have h2 := getD_map_dflt (fun cell : Cell => { cell with symbol := none })
    (b.cells.getD r []) c dfltCell
  simpa [dfltCell] using h2

theorem strip_candidatesAt {b b' : Board} (h : b.stripSymbols = b'.stripSymbols)
    (q : Nat × Nat) : b.candidatesAt q = b'.candidatesAt q := by
  have h1 := stripSymbols_cellAt b q.1 q.2
  have h2 := stripSymbols_cellAt b' q.1 q.2
  rw [h] at h1
  have h3 := h1.symm.trans h2
  unfold Board.candidatesAt
  have h4 := congrArg Cell.candidates h3
  simpa using h4

theorem strip_cells_length {b b' : Board} (h : b.stripSymbols = b'.stripSymbols) :
    b.cells.length = b'.cells.length := by
  have : b.stripSymbols.cells.length = b'.stripSymbols.cells.length := by rw [h]
  simpa [Board.stripSymbols] using this

theorem strip_row_length {b b' : Board} (h : b.stripSymbols = b'.stripSymbols)
    (r : Nat) : (b.cells.getD r []).length = (b'.cells.getD r []).length := by
  have hmap : ∀ bb : Board, (bb.stripSymbols.cells.getD r []).length =
      ((bb.cells.getD r []).length) := by
    intro bb
    have hh := getD_map_dflt (fun rw0 : List Cell => rw0.map fun cell =>
      { cell with symbol := none }) bb.cells r []
    simp only [List.map_nil] at hh
    simp only [Board.stripSymbols]
    rw [hh, List.length_map]
  have : (b.stripSymbols.cells.getD r []).length =
      (b'.stripSymbols.cells.getD r []).length := by rw [h]
  rw [hmap b, hmap b'] at this
  exact this

theorem strip_inRange {b b' : Board} (h : b.stripSymbols = b'.stripSymbols)
    (p : Nat × Nat) : b.inRange p ↔ b'.inRange p := by
  unfold Board.inRange
  rw [strip_cells_length h, strip_row_length h]

/-! ### Solver infrastructure: list access lemmas -/

theorem getD_set_self {α : Type} (l : List α) {i : Nat} (h : i < l.length)
    (a : α) (d : α) : (l.set i a).getD i d = a := by
  rw [List.getD_eq_getElem?_getD, List.getElem?_set_self h]
  rfl

theorem getD_set_ne {α : Type} (l : List α) {i j : Nat} (h : i ≠ j)
    (a : α) (d : α) : (l.set i a).getD j d = l.getD j d := by
  rw [List.getD_eq_getElem?_getD, List.getElem?_set_ne h, ← List.getD_eq_getElem?_getD]

theorem getD_mem {α : Type} (l : List α) {i : Nat} (h : i < l.length) (d : α) :
    l.getD i d ∈ l := by
  rw [List.getD_eq_getElem?_getD, List.getElem?_eq_getElem h]
  exact List.getElem_mem h

theorem nodup_getD_ne {α : Type} {l : List α} (hn : l.Nodup) {i j : Nat}
    (hi : i < l.length) (hj : j < l.length) (hij : i ≠ j) (d : α) :
    l.getD i d ≠ l.getD j d := by
  rw [List.getD_eq_getElem?_getD, List.getElem?_eq_getElem hi,
    List.getD_eq_getElem?_getD, List.getElem?_eq_getElem hj]
  simp only [Option.getD_some]
  intro hc
  exact hij (hn.getElem_inj_iff.1 hc)

theorem getD_replicate_zero (n j : Nat) : (List.replicate n (0 : Nat)).getD j 0 = 0 := by
  rw [List.getD_eq_getElem?_getD, List.getElem?_replicate]
  by_cases h : j < n <;> simp [h]

/-! ### Solver infrastructure: empty positions -/

theorem mem_emptyPositions {b : Board} {p : Nat × Nat} :
    p ∈ b.emptyPositions ↔ b.inRange p ∧ b.symbolAt p = none := by
  unfold Board.emptyPositions Board.inRange
  rw [List.mem_flatMap]
  constructor
  · rintro ⟨r, hr, hp⟩
    rw [List.mem_range] at hr
    rw [List.mem_filterMap] at hp
    obtain ⟨c, hc, hpc⟩ := hp
    rw [List.mem_range] at hc
    by_cases hsym : (b.cellAt r c).symbol = none
    · rw [if_pos hsym] at hpc
      injection hpc with hpc
      subst hpc
      exact ⟨⟨hr, hc⟩, hsym⟩
    · rw [if_neg hsym] at hpc
      exact absurd hpc (by simp)
  · rintro ⟨⟨h1, h2⟩, hsym⟩
    refine ⟨p.1, List.mem_range.2 h1, ?_⟩
    rw [List.mem_filterMap]
    refine ⟨p.2, List.mem_range.2 h2, ?_⟩
    have hsym' : (b.cellAt p.1 p.2).symbol = none := hsym
    rw [if_pos hsym']

theorem emptyPositions_nodup (b : Board) : b.emptyPositions.Nodup := by
  unfold Board.emptyPositions
  rw [List.nodup_flatMap]
  constructor
  · intro r hr
    apply List.Nodup.filterMap
    · intro c c' q hc hc'
      by_cases h1 : (b.cellAt r c).symbol = none
      · rw [if_pos h1] at hc
        by_cases h2 : (b.cellAt r c').symbol = none
        · rw [if_pos h2] at hc'
          injection hc with hc
          injection hc' with hc'
          rw [← hc'] at hc
          exact congrArg Prod.snd hc
        · rw [if_neg h2] at hc'
          exact absurd hc' (by simp)
      · rw [if_neg h1] at hc
        exact absurd hc (by simp)
    · exact List.nodup_range _
  · apply List.Pairwise.imp ?_ (List.pairwise_lt_range _)
    intro r r' hlt
    intro q hq hq'
    rw [List.mem_filterMap] at hq hq'
    obtain ⟨c, -, hc⟩ := hq
    obtain ⟨c', -, hc'⟩ := hq'
    have h1 : q.1 = r := by
      by_cases h : (b.cellAt r c).symbol = none
      · rw [if_pos h] at hc
        injection hc with hc
        rw [← hc]
      · rw [if_neg h] at hc
        exact absurd hc (by simp)
    have h2 : q.1 = r' := by
      by_cases h : (b.cellAt r' c').symbol = none
      · rw [if_pos h] at hc'
        injection hc' with hc'
        rw [← hc']
      · rw [if_neg h] at hc'
        exact absurd hc' (by simp)
    omega

/-! ### Solver infrastructure: candidate scan -/

theorem firstValidAux_some_spec {b : Board} {cell : Cell} :
    ∀ (l : List String) (k kf : Nat), firstValidAux b cell l k = some kf →
    k ≤ kf ∧ kf - k < l.length ∧
    Solver.is_candidate_valid b (l.getD (kf - k) "") cell = true := by
  intro l
  induction l with
  | nil => intro k kf h; simp [firstValidAux] at h
  | cons cand rest ih =>
    intro k kf h
    rw [firstValidAux] at h
    by_cases hv : Solver.is_candidate_valid b cand cell = true
    · rw [if_pos hv] at h
      injection h with h
      subst h
      simpa using hv
    · rw [if_neg hv] at h
      obtain ⟨h1, h2, h3⟩ := ih (k + 1) kf h
      refine ⟨by omega, by simp; omega, ?_⟩
      have hoff : kf - k = (kf - (k + 1)) + 1 := by omega
      rw [hoff]
      simpa using h3

theorem firstValidFrom_some_spec {b : Board} {cell : Cell} {cands : List String}
    {k kf : Nat} (h : firstValidFrom b cell cands k = some kf) :
    k ≤ kf ∧ kf < cands.length ∧
    Solver.is_candidate_valid b (cands.getD kf "") cell = true := by
  unfold firstValidFrom at h
  obtain ⟨h1, h2, h3⟩ := firstValidAux_some_spec (cands.drop k) k kf h
  rw [List.length_drop] at h2
  have h2' : kf - k < cands.length - k := h2
  have hlt : kf < cands.length := by
    rcases Nat.lt_or_ge kf cands.length with hlt' | hge
    · exact hlt'
    · exact absurd h2' (not_lt.2 (Nat.sub_le_sub_right hge k))
  refine ⟨h1, hlt, ?_⟩
  have hget : (cands.drop k).getD (kf - k) "" = cands.getD kf "" := by
    have hidx : k + (kf - k) = kf := by omega
    rw [List.getD_eq_getElem?_getD, List.getD_eq_getElem?_getD, List.getElem?_drop,
      hidx]
  rw [← hget]
  exact h3

/-! ### The loop invariant is preserved -/

theorem loopInv_inRange {b0 : Board} {order : List (Nat × Nat)} {s : SolveState}
    (hinv : LoopInv b0 order s) {bb : Board} (hstrip : bb.stripSymbols = b0.stripSymbols)
    {j : Nat} (hj : j < order.length) : bb.inRange (order.getD j (0, 0)) := by
  have hmem := hinv.order_mem _ (getD_mem order hj (0, 0))
  rw [mem_emptyPositions] at hmem
  exact (strip_inRange hstrip _).2 hmem.1

theorem loopInv_try {b0 : Board} {order : List (Nat × Nat)} {s : SolveState}
    {b1 : Board} {k1 : Nat} {s' : SolveState}
    (hinv : LoopInv b0 order s)
    (hlt : s.idx < order.length)
    (hb1strip : b1.stripSymbols = b0.stripSymbols)
    (hb1self : b1.symbolAt (order.getD s.idx (0, 0)) = none)
    (hb1other : ∀ q, q ≠ order.getD s.idx (0, 0) →
      b1.symbolAt q = s.board.symbolAt q)
    (hstep : solveTry order b1 s.ks s.idx k1 = .next s') :
    LoopInv b0 order s' := by
  obtain ⟨len_inv, idxle, nodup, omem, shape, asg_lt, unas_gt, frame, ksle, symmem⟩ :=
    hinv
  have hinv' : LoopInv b0 order s :=
    ⟨len_inv, idxle, nodup, omem, shape, asg_lt, unas_gt, frame, ksle, symmem⟩
  have hin : b1.inRange (order.getD s.idx (0, 0)) := loopInv_inRange hinv' hb1strip hlt
  have hcand1 : ∀ q, b1.candidatesAt q = s.board.candidatesAt q := fun q =>
    strip_candidatesAt (hb1strip.trans shape.symm) q
  have hgetne : ∀ j, j < order.length → j ≠ s.idx →
      order.getD j (0, 0) ≠ order.getD s.idx (0, 0) := fun j hj hne =>
    nodup_getD_ne nodup hj hlt hne (0, 0)
  unfold solveTry at hstep
  cases hfv : firstValidFrom b1
      (b1.cellAt (order.getD s.idx (0, 0)).1 (order.getD s.idx (0, 0)).2)
      (b1.candidatesAt (order.getD s.idx (0, 0))) k1 with
  | some kf =>
    rw [hfv] at hstep
    injection hstep with hstep
    subst hstep
    obtain ⟨hk1kf, hkflt, hvalid⟩ := firstValidFrom_some_spec hfv
    have hb2self : (b1.setSymbol (order.getD s.idx (0, 0))
        (some ((b1.candidatesAt (order.getD s.idx (0, 0))).getD kf ""))).symbolAt
        (order.getD s.idx (0, 0)) =
        some ((b1.candidatesAt (order.getD s.idx (0, 0))).getD kf "") :=
      symbolAt_setSymbol_self b1 _ hin
    refine ⟨?_, ?_, nodup, omem, ?_, ?_, ?_, ?_, ?_, ?_⟩
    · simpa [List.length_set] using len_inv
    · simpa using hlt
    · exact (stripSymbols_setSymbol b1 _ _).trans hb1strip
    · intro j hj
      simp only at hj ⊢
      rcases Nat.lt_or_ge j s.idx with hjlt | hjge
      · rw [symbolAt_setSymbol_ne b1 _ (hgetne j (by omega) (by omega)),
          hb1other _ (hgetne j (by omega) (by omega))]
        exact asg_lt j hjlt
      · have hj' : j = s.idx := by omega
        subst hj'
        rw [hb2self]
        rfl
    · intro j hj1 hj2
      simp only at hj1 hj2 ⊢
      rw [symbolAt_setSymbol_ne b1 _ (hgetne j hj2 (by omega)),
        hb1other _ (hgetne j hj2 (by omega))]
      exact unas_gt j (by omega) hj2
    · intro q hq
      have hqne : q ≠ order.getD s.idx (0, 0) := by
        intro hc
        exact hq (hc ▸ getD_mem order hlt (0, 0))
      rw [symbolAt_setSymbol_ne b1 _ hqne, hb1other _ hqne]
      exact frame q hq
    · intro j hj
      simp only
      rw [candidatesAt_setSymbol]
      by_cases hje : j = s.idx
      · subst hje
        rw [getD_set_self _ (by omega) _ _]
        exact Nat.le_of_lt hkflt
      · rw [getD_set_ne _ (fun hc => hje hc.symm) _ _, hcand1]
        exact ksle j hj
    · intro j hj
      simp only at hj ⊢
      rcases Nat.lt_or_ge j s.idx with hjlt | hjge
      · obtain ⟨v, hv1, hv2⟩ := symmem j hjlt
        refine ⟨v, ?_, ?_⟩
        · rw [symbolAt_setSymbol_ne b1 _ (hgetne j (by omega) (by omega)),
            hb1other _ (hgetne j (by omega) (by omega))]
          exact hv1
        · rw [candidatesAt_setSymbol, hcand1]
          exact hv2
      · have hj' : j = s.idx := by omega
        subst hj'
        refine ⟨(b1.candidatesAt (order.getD s.idx (0, 0))).getD kf "", hb2self, ?_⟩
        rw [candidatesAt_setSymbol]
        exact getD_mem _ hkflt _
  | none =>
    rw [hfv] at hstep
    cases hsidx : s.idx with
    | zero =>
      rw [hsidx] at hstep
      exact absurd hstep (by simp)
    | succ i =>
      rw [hsidx] at hstep
      injection hstep with hstep
      subst hstep
      rw [hsidx] at hlt
      refine ⟨?_, ?_, nodup, omem, hb1strip, ?_, ?_, ?_, ?_, ?_⟩
      · simpa [List.length_set] using len_inv
      · simp only
        omega
      · intro j hj
        simp only at hj ⊢
        rw [hb1other _ (hgetne j (by omega) (by omega))]
        exact asg_lt j (by omega)
      · intro j hj1 hj2
        simp only at hj1 hj2 ⊢
        by_cases hje : j = s.idx
        · subst hje
          exact hb1self
        · rw [hb1other _ (hgetne j hj2 hje)]
          exact unas_gt j (by omega) hj2
      · intro q hq
        have hqne : q ≠ order.getD s.idx (0, 0) := by
          intro hc
          exact hq (hc ▸ getD_mem order (by omega) (0, 0))
        rw [hb1other _ hqne]
        exact frame q hq
      · intro j hj
        simp only
        rw [hcand1]
        by_cases hje : j = s.idx
        · subst hje
          rw [hsidx, getD_set_self _ (by omega) _ _]
          exact Nat.zero_le _
        · rw [show i + 1 = s.idx from hsidx.symm,
            getD_set_ne _ (fun hc => hje hc.symm) _ _]
          exact ksle j hj
      · intro j hj
        simp only at hj ⊢
        obtain ⟨v, hv1, hv2⟩ := symmem j (by omega)
        refine ⟨v, ?_, ?_⟩
        · rw [hb1other _ (hgetne j (by omega) (by omega))]
          exact hv1
        · rw [hcand1]
          exact hv2

theorem loopInv_step {b0 : Board} {order : List (Nat × Nat)} {s s' : SolveState}
    (hinv : LoopInv b0 order s) (hstep : solveStep order s = .next s') :
    LoopInv b0 order s' := by
  unfold solveStep at hstep
  by_cases hge : s.idx ≥ order.length
  · rw [if_pos hge] at hstep
    exact absurd hstep (by simp)
  · rw [if_neg hge] at hstep
    have hlt : s.idx < order.length := by omega
    by_cases hasg : (s.board.symbolAt (order.getD s.idx (0, 0))).isSome = true
    · rw [if_pos hasg] at hstep
      have hin : s.board.inRange (order.getD s.idx (0, 0)) :=
        loopInv_inRange hinv hinv.shape hlt
      refine loopInv_try hinv hlt ?_ ?_ ?_ hstep
      · exact (stripSymbols_setSymbol _ _ _).trans hinv.shape
      · exact symbolAt_setSymbol_self _ _ hin
      · intro q hq
        exact symbolAt_setSymbol_ne _ _ hq
    · rw [if_neg hasg] at hstep
      refine loopInv_try hinv hlt hinv.shape ?_ (fun q _ => rfl) hstep
      rw [Bool.not_eq_true] at hasg
      cases hval : s.board.symbolAt (order.getD s.idx (0, 0)) with
      | none => rfl
      | some v =>
        rw [hval] at hasg
        simp at hasg

/-! ### Loop exit analysis and C1 -/

theorem finalReturn_eq {b : Board} {order : List (Nat × Nat)} (hne : order ≠ []) :
    finalReturn b order =
      (b.symbolAt (order.getD (order.length - 1) (0, 0))).isSome := by
  unfold finalReturn
  have hlen : 0 < order.length := List.length_pos.2 hne
  have hgl : order.getLast? = some (order.getD (order.length - 1) (0, 0)) := by
    rw [List.getLast?_eq_getElem?, List.getElem?_eq_getElem (by omega)]
    congr 1
    rw [List.getD_eq_getElem?_getD, List.getElem?_eq_getElem (by omega)]
    rfl
  rw [hgl]

theorem loopInv_try_done {b0 : Board} {order : List (Nat × Nat)} {s : SolveState}
    {b1 : Board} {k1 : Nat} {res : Bool} {bf : Board}
    (hinv : LoopInv b0 order s)
    (hlt : s.idx < order.length)
    (hb1self : b1.symbolAt (order.getD s.idx (0, 0)) = none)
    (hb1other : ∀ q, q ≠ order.getD s.idx (0, 0) →
      b1.symbolAt q = s.board.symbolAt q)
    (hstep : solveTry order b1 s.ks s.idx k1 = .done res bf) :
    res = false ∧ ∀ p, bf.symbolAt p = b0.symbolAt p := by
  have hne : order ≠ [] := by
    intro hc
    rw [hc] at hlt
    simp at hlt
  have hgetne : ∀ j, j < order.length → j ≠ s.idx →
      order.getD j (0, 0) ≠ order.getD s.idx (0, 0) := fun j hj hnej =>
    nodup_getD_ne hinv.nodup hj hlt hnej (0, 0)
  unfold solveTry at hstep
  cases hfv : firstValidFrom b1
      (b1.cellAt (order.getD s.idx (0, 0)).1 (order.getD s.idx (0, 0)).2)
      (b1.candidatesAt (order.getD s.idx (0, 0))) k1 with
  | some kf =>
    rw [hfv] at hstep
    exact absurd hstep (by simp)
  | none =>
    rw [hfv] at hstep
    cases hsidx : s.idx with
    | succ i =>
      rw [hsidx] at hstep
      exact absurd hstep (by simp)
    | zero =>
      rw [hsidx] at hstep
      injection hstep with h1 h2
      subst h2
      have hallnone : ∀ j, j < order.length →
          b1.symbolAt (order.getD j (0, 0)) = none := by
        intro j hj
        by_cases hje : j = s.idx
        · subst hje
          exact hb1self
        · rw [hb1other _ (hgetne j hj hje)]
          exact hinv.unassigned_gt j (by omega) hj
      constructor
      · rw [← h1, finalReturn_eq hne, hallnone _ (by omega)]
        rfl
      · intro p
        by_cases hp : p ∈ order
        · rw [mem_iff_getD order (0, 0) p] at hp
          obtain ⟨j, hj, hjp⟩ := hp
          have hempty := hinv.order_mem p (by
            rw [mem_iff_getD order (0, 0) p]
            exact ⟨j, hj, hjp⟩)
          rw [mem_emptyPositions] at hempty
          rw [← hjp, hallnone j hj, hjp, hempty.2]
        · have hpne : p ≠ order.getD s.idx (0, 0) := by
            intro hc
            exact hp (hc ▸ getD_mem order hlt (0, 0))
          rw [hb1other _ hpne]
          exact hinv.frame p hp

theorem loopInv_done {b0 : Board} {order : List (Nat × Nat)} {s : SolveState}
    {res : Bool} {bf : Board}
    (hinv : LoopInv b0 order s) (hne : order ≠ [])
    (hstep : solveStep order s = .done res bf) :
    (res = false ∧ ∀ p, bf.symbolAt p = b0.symbolAt p) ∨
    (res = true ∧ s.idx = order.length ∧ bf = s.board) := by
  unfold solveStep at hstep
  by_cases hge : s.idx ≥ order.length
  · rw [if_pos hge] at hstep
    injection hstep with h1 h2
    have hidx : s.idx = order.length := by
      have := hinv.idx_le
      omega
    refine Or.inr ⟨?_, hidx, h2.symm⟩
    rw [← h1, finalReturn_eq hne]
    have := hinv.assigned_lt (order.length - 1) (by
      rw [hidx]
      have : 0 < order.length := List.length_pos.2 hne
      omega)
    exact this
  · rw [if_neg hge] at hstep
    have hlt : s.idx < order.length := by omega
    by_cases hasg : (s.board.symbolAt (order.getD s.idx (0, 0))).isSome = true
    · rw [if_pos hasg] at hstep
      have hin : s.board.inRange (order.getD s.idx (0, 0)) :=
        loopInv_inRange hinv hinv.shape hlt
      refine Or.inl (loopInv_try_done hinv hlt ?_ ?_ hstep)
      · exact symbolAt_setSymbol_self _ _ hin
      · intro q hq
        exact symbolAt_setSymbol_ne _ _ hq
    · rw [if_neg hasg] at hstep
      refine Or.inl (loopInv_try_done hinv hlt ?_ (fun q _ => rfl) hstep)
      rw [Bool.not_eq_true] at hasg
      cases hval : s.board.symbolAt (order.getD s.idx (0, 0)) with
      | none => rfl
      | some v =>
        rw [hval] at hasg
        simp at hasg

theorem solveLoop_false_restores {b0 : Board} {order : List (Nat × Nat)}
    (hne : order ≠ []) :
    ∀ (fuel : Nat) (s : SolveState) (bf : Board), LoopInv b0 order s →
      solveLoop order fuel s = some (false, bf) →
      ∀ p, bf.symbolAt p = b0.symbolAt p := by
  intro fuel
  induction fuel with
  | zero =>
    intro s bf _ hrun
    simp [solveLoop] at hrun
  | succ fuel ih =>
    intro s bf hinv hrun
    rw [solveLoop] at hrun
    cases hstep : solveStep order s with
    | done r b =>
      rw [hstep] at hrun
      injection hrun with hrun
      have hr : r = false := congrArg Prod.fst hrun
      have hb : b = bf := congrArg Prod.snd hrun
      rcases loopInv_done hinv hne hstep with ⟨-, hrest⟩ | ⟨htrue, -, -⟩
      · exact hb ▸ hrest
      · rw [htrue] at hr
        exact absurd hr (by simp)
    | next s' =>
      rw [hstep] at hrun
      exact ih s' bf (loopInv_step hinv hstep) hrun

theorem loopInv_init {b0 : Board} {order : List (Nat × Nat)}
    (hperm : order.Perm b0.emptyPositions) :
    LoopInv b0 order ⟨b0, List.replicate order.length 0, 0⟩ := by
  refine ⟨?_, ?_, ?_, ?_, rfl, ?_, ?_, ?_, ?_, ?_⟩
  · exact List.length_replicate _ _
  · exact Nat.zero_le _
  · exact hperm.nodup_iff.2 (emptyPositions_nodup b0)
  · intro p hp
    exact hperm.subset hp
  · intro j hj
    exact absurd hj (Nat.not_lt_zero j)
  · intro j hj1 hj2
    have hmem := hperm.subset (getD_mem order hj2 (0, 0))
    rw [mem_emptyPositions] at hmem
    exact hmem.2
  · intro q hq
    rfl
  · intro j hj
    simp only [getD_replicate_zero]
    exact Nat.zero_le _
  · intro j hj
    exact absurd hj (Nat.not_lt_zero j)

/-- C1: whenever the backtracking solve returns failure, the grid is
restored to exactly its pre-call state: every cell that was unassigned at
entry is unassigned at exit, and no originally-assigned cell changed
(`order` is the shuffled list of empty-cell positions). -/
theorem solve_backtrack_failure_restores (b0 : Board) (order : List (Nat × Nat))
    (fuel : Nat) (bf : Board)
    (hperm : order.Perm b0.emptyPositions)
    (hrun : Solver.solve_backtrack b0 order fuel = some (false, bf)) :
    ∀ p : Nat × Nat, bf.symbolAt p = b0.symbolAt p := by
  unfold Solver.solve_backtrack at hrun
  by_cases hemp : b0.emptyPositions.length = 0
  · rw [if_pos hemp] at hrun
    injection hrun with hrun
    exact absurd (congrArg Prod.fst hrun) (by simp)
  · rw [if_neg hemp] at hrun
    have hne : order ≠ [] := by
      intro hc
      rw [hc] at hperm
      have hlen := hperm.length_eq
      simp at hlen
      omega
    exact solveLoop_false_restores hne fuel _ bf (loopInv_init hperm) hrun

/-- Witness for C1: the empty 2×2 board whose cells carry no candidate
lists is unsolvable; the run fails after one iteration and the board is
returned untouched. -/
theorem solve_backtrack_failure_restores_witness :
    wBoard2.emptyPositions.Perm wBoard2.emptyPositions ∧
    Solver.solve_backtrack wBoard2 wBoard2.emptyPositions 1 =
      some (false, wBoard2) ∧
    wBoard2.symbolAt (0, 0) = wBoard2.symbolAt (0, 0) :=
  ⟨List.Perm.refl _, by decide,
   solve_backtrack_failure_restores wBoard2 wBoard2.emptyPositions 1 wBoard2
     (List.Perm.refl _) (by decide) (0, 0)⟩

/-! ### The termination measure -/

theorem eulerSeg_pos (ms : List Nat) : 1 ≤ eulerSeg ms := by
  cases ms with
  | nil => exact Nat.le_refl 1
  | cons m rest =>
    rw [eulerSeg]
    omega

theorem take_set_of_le {α : Type} (l : List α) {i j : Nat} (h : j ≤ i) (a : α) :
    (l.set i a).take j = l.take j := by
  apply List.ext_getElem?
  intro m
  rw [List.getElem?_take, List.getElem?_take]
  by_cases hm : m < j
  · rw [if_pos hm, if_pos hm, List.getElem?_set_ne (by omega)]
  · rw [if_neg hm, if_neg hm]

theorem take_succ_getD {α : Type} (l : List α) {i : Nat} (h : i < l.length) (d : α) :
    l.take (i + 1) = l.take i ++ [l.getD i d] := by
  rw [List.take_succ, List.getElem?_eq_getElem h]
  rw [List.getD_eq_getElem?_getD, List.getElem?_eq_getElem h]
  rfl

theorem set_take_succ {α : Type} (l : List α) {i : Nat} (h : i < l.length) (a : α) :
    (l.set i a).take (i + 1) = l.take i ++ [a] := by
  rw [take_succ_getD (l.set i a) (by simpa using h) a, take_set_of_le l (le_refl i) a,
    getD_set_self l h a a]

theorem drop_cons_getD {α : Type} (l : List α) {i : Nat} (h : i < l.length) (d : α) :
    l.drop i = l.getD i d :: l.drop (i + 1) := by
  rw [List.getD_eq_getElem?_getD, List.getElem?_eq_getElem h]
  exact List.drop_eq_getElem_cons h

theorem eulerPath_append (ms ks' : List Nat) (k : Nat)
    (h : ks'.length < ms.length) :
    eulerPath ms (ks' ++ [k]) =
      eulerPath ms ks' + 1 + k * (eulerSeg (ms.drop (ks'.length + 1)) + 1) := by
  induction ks' generalizing ms with
  | nil =>
    cases ms with
    | nil => simp at h
    | cons m rest =>
      show eulerPath (m :: rest) [k] = _
      rw [eulerPath, eulerPath]
      simp [eulerPath]
  | cons k0 ks' ih =>
    cases ms with
    | nil => simp at h
    | cons m rest =>
      have h' : ks'.length < rest.length := by
        simp only [List.length_cons] at h
        omega
      show eulerPath (m :: rest) (k0 :: (ks' ++ [k])) = _
      rw [eulerPath, ih rest h', eulerPath]
      have hdrop : (m :: rest).drop (ks'.length + 1 + 1) = rest.drop (ks'.length + 1) :=
        rfl
      rw [show (k0 :: ks').length + 1 = ks'.length + 1 + 1 by simp, hdrop]
      omega

theorem eulerPath_bound (ms ks' : List Nat)
    (hlen : ks'.length ≤ ms.length)
    (hbound : ∀ j, j < ks'.length → ks'.getD j 0 ≤ ms.getD j 0) :
    eulerPath ms ks' + eulerSeg (ms.drop ks'.length) + ks'.length ≤ eulerSeg ms := by
  induction ks' generalizing ms with
  | nil => simp [eulerPath]
  | cons k0 ks' ih =>
    cases ms with
    | nil => simp at hlen
    | cons m rest =>
      have hlen' : ks'.length ≤ rest.length := by
        simp only [List.length_cons] at hlen
        omega
      have hbound' : ∀ j, j < ks'.length → ks'.getD j 0 ≤ rest.getD j 0 := by
        intro j hj
        have := hbound (j + 1) (by simpa using Nat.succ_lt_succ hj)
        simpa using this
      have hk0 : k0 ≤ m := by
        have := hbound 0 (by simp)
        simpa using this
      have hih := ih rest hlen' hbound'
      rw [eulerPath, eulerSeg]
      have hdrop : (m :: rest).drop (k0 :: ks').length = rest.drop ks'.length := rfl
      rw [hdrop]
      have hmul : (k0 + 1) * (eulerSeg rest + 1) ≤ (m + 1) * (eulerSeg rest + 1) :=
        Nat.mul_le_mul_right _ (by omega)
      have hexp : (k0 + 1) * (eulerSeg rest + 1) =
          k0 * (eulerSeg rest + 1) + (eulerSeg rest + 1) := by ring
      simp only [List.length_cons]
      omega

theorem candCounts_length (b0 : Board) (order : List (Nat × Nat)) :
    (candCounts b0 order).length = order.length := by
  simp [candCounts]

theorem candCounts_getD {b0 : Board} {order : List (Nat × Nat)} {j : Nat}
    (hj : j < order.length) :
    (candCounts b0 order).getD j 0 =
      (b0.candidatesAt (order.getD j (0, 0))).length := by
  unfold candCounts
  rw [List.getD_eq_getElem?_getD, List.getElem?_map,
    List.getElem?_eq_getElem hj]
  rw [List.getD_eq_getElem?_getD, List.getElem?_eq_getElem hj]
  rfl

theorem loopMeasure_ge_euler (b0 : Board) (order : List (Nat × Nat))
    (s : SolveState) :
    eulerPath (candCounts b0 order) (s.ks.take s.idx) ≤ loopMeasure b0 order s := by
  unfold loopMeasure
  by_cases h1 : s.idx < order.length
  · rw [if_pos h1]
    by_cases h2 : (s.board.symbolAt (order.getD s.idx (0, 0))).isSome = true
    · rw [if_pos h2]
      omega
    · rw [if_neg h2]
      omega
  · rw [if_neg h1]
    omega

theorem loopMeasure_lt_of_inv {b0 : Board} {order : List (Nat × Nat)}
    {s : SolveState} (hinv : LoopInv b0 order s) :
    loopMeasure b0 order s < eulerSeg (candCounts b0 order) := by
  have hkslen : s.ks.length = order.length := hinv.ks_len
  have hmslen : (candCounts b0 order).length = order.length :=
    candCounts_length b0 order
  have htklen : (s.ks.take s.idx).length = s.idx := by
    rw [List.length_take]
    have := hinv.idx_le
    omega
  have hbound : ∀ j, j < (s.ks.take s.idx).length →
      (s.ks.take s.idx).getD j 0 ≤ (candCounts b0 order).getD j 0 := by
    intro j hj
    rw [htklen] at hj
    have hjlt : j < order.length := by
      have := hinv.idx_le
      omega
    have htk : (s.ks.take s.idx).getD j 0 = s.ks.getD j 0 := by
      rw [List.getD_eq_getElem?_getD, List.getElem?_take, if_pos hj,
        ← List.getD_eq_getElem?_getD]
    rw [htk, candCounts_getD hjlt]
    have := hinv.ks_le j hjlt
    rw [strip_candidatesAt hinv.shape] at this
    exact this
  have hmain := eulerPath_bound (candCounts b0 order) (s.ks.take s.idx)
    (by rw [htklen, hmslen]; exact hinv.idx_le) hbound
  rw [htklen] at hmain
  have hsegpos := eulerSeg_pos ((candCounts b0 order).drop s.idx)
  unfold loopMeasure
  by_cases h1 : s.idx < order.length
  · rw [if_pos h1]
    by_cases h2 : (s.board.symbolAt (order.getD s.idx (0, 0))).isSome = true
    · rw [if_pos h2]
      -- phase ≤ eulerSeg (ms.drop idx) - 1
      have hk0 : s.ks.getD s.idx 0 ≤ (candCounts b0 order).getD s.idx 0 := by
        rw [candCounts_getD h1]
        have := hinv.ks_le s.idx h1
        rw [strip_candidatesAt hinv.shape] at this
        exact this
      have hdrop : (candCounts b0 order).drop s.idx =
          (candCounts b0 order).getD s.idx 0 ::
          (candCounts b0 order).drop (s.idx + 1) :=
        drop_cons_getD _ (by omega) 0
      have hseg : eulerSeg ((candCounts b0 order).drop s.idx) =
          1 + ((candCounts b0 order).getD s.idx 0 + 1) *
            (eulerSeg ((candCounts b0 order).drop (s.idx + 1)) + 1) := by
        rw [hdrop, eulerSeg]
      have hmul : (s.ks.getD s.idx 0 + 1) *
          (eulerSeg ((candCounts b0 order).drop (s.idx + 1)) + 1) ≤
          ((candCounts b0 order).getD s.idx 0 + 1) *
          (eulerSeg ((candCounts b0 order).drop (s.idx + 1)) + 1) :=
        Nat.mul_le_mul_right _ (by omega)
      have hexp : (s.ks.getD s.idx 0 + 1) *
          (eulerSeg ((candCounts b0 order).drop (s.idx + 1)) + 1) =
          s.ks.getD s.idx 0 *
          (eulerSeg ((candCounts b0 order).drop (s.idx + 1)) + 1) +
          (eulerSeg ((candCounts b0 order).drop (s.idx + 1)) + 1) := by ring
      omega
    · rw [if_neg h2]
      omega
  · rw [if_neg h1]
    omega

theorem loopMeasure_forward_ge {b0 : Board} {order : List (Nat × Nat)}
    {s : SolveState} (b2 : Board) (kf : Nat)
    (hinv : LoopInv b0 order s) (hlt : s.idx < order.length) :
    eulerPath (candCounts b0 order) (s.ks.take s.idx) + 1 +
      kf * (eulerSeg ((candCounts b0 order).drop (s.idx + 1)) + 1) ≤
    loopMeasure b0 order ⟨b2, s.ks.set s.idx kf, s.idx + 1⟩ := by
  have hkslen : s.ks.length = order.length := hinv.ks_len
  have hge := loopMeasure_ge_euler b0 order ⟨b2, s.ks.set s.idx kf, s.idx + 1⟩
  simp only at hge
  rw [set_take_succ s.ks (by omega) kf] at hge
  rw [eulerPath_append _ _ _ (by
    rw [List.length_take, candCounts_length]
    omega)] at hge
  have htklen : (s.ks.take s.idx).length = s.idx := by
    rw [List.length_take]
    omega
  rw [htklen] at hge
  omega

theorem loopMeasure_backtrack {b0 : Board} {order : List (Nat × Nat)}
    {s : SolveState} (b1 : Board) {j : Nat}
    (hinv : LoopInv b0 order s)
    (hidx : s.idx = j + 1)
    (hlt : s.idx < order.length)
    (hb1asg : (b1.symbolAt (order.getD j (0, 0))).isSome = true) :
    loopMeasure b0 order ⟨b1, s.ks.set s.idx 0, j⟩ =
      eulerPath (candCounts b0 order) (s.ks.take s.idx) +
      eulerSeg ((candCounts b0 order).drop s.idx) := by
  have hkslen : s.ks.length = order.length := hinv.ks_len
  have hjlt : j < order.length := by omega
  unfold loopMeasure
  simp only
  rw [if_pos hjlt, if_pos hb1asg]
  rw [take_set_of_le s.ks (by omega) 0]
  rw [getD_set_ne s.ks (by omega) 0 0]
  have htake : s.ks.take s.idx = s.ks.take j ++ [s.ks.getD j 0] := by
    rw [hidx]
    exact take_succ_getD s.ks (by omega) 0
  rw [htake, eulerPath_append _ _ _ (by
    rw [List.length_take, candCounts_length]
    omega)]
  have htklen : (s.ks.take j).length = j := by
    rw [List.length_take]
    omega
  rw [htklen]
  rw [show j + 1 = s.idx from hidx.symm]
  omega

theorem loopMeasure_step_lt {b0 : Board} {order : List (Nat × Nat)}
    {s s' : SolveState}
    (hinv : LoopInv b0 order s) (hstep : solveStep order s = .next s') :
    loopMeasure b0 order s < loopMeasure b0 order s' := by
  have hkslen : s.ks.length = order.length := hinv.ks_len
  have hmslen := candCounts_length b0 order
  unfold solveStep at hstep
  by_cases hge : s.idx ≥ order.length
  · rw [if_pos hge] at hstep
    exact absurd hstep (by simp)
  · rw [if_neg hge] at hstep
    have hlt : s.idx < order.length := by omega
    have htklen : (s.ks.take s.idx).length = s.idx := by
      rw [List.length_take]
      omega
    have hmi : (candCounts b0 order).getD s.idx 0 =
        (s.board.candidatesAt (order.getD s.idx (0, 0))).length := by
      rw [candCounts_getD hlt, strip_candidatesAt hinv.shape]
    have hk0 : s.ks.getD s.idx 0 ≤ (candCounts b0 order).getD s.idx 0 := by
      rw [hmi]
      exact hinv.ks_le s.idx hlt
    have hdropcons : (candCounts b0 order).drop s.idx =
        (candCounts b0 order).getD s.idx 0 ::
        (candCounts b0 order).drop (s.idx + 1) :=
      drop_cons_getD _ (by omega) 0
    have hseg : eulerSeg ((candCounts b0 order).drop s.idx) =
        1 + ((candCounts b0 order).getD s.idx 0 + 1) *
          (eulerSeg ((candCounts b0 order).drop (s.idx + 1)) + 1) := by
      rw [hdropcons, eulerSeg]
    have hgetne : ∀ j, j < order.length → j ≠ s.idx →
        order.getD j (0, 0) ≠ order.getD s.idx (0, 0) := fun j hj hnej =>
      nodup_getD_ne hinv.nodup hj hlt hnej (0, 0)
    by_cases hasg : (s.board.symbolAt (order.getD s.idx (0, 0))).isSome = true
    · -- revisit of an assigned cell: clear it, scan from cursor + 1
      rw [if_pos hasg] at hstep
      have hmeas_s : loopMeasure b0 order s =
          eulerPath (candCounts b0 order) (s.ks.take s.idx) +
          (1 + s.ks.getD s.idx 0 *
            (eulerSeg ((candCounts b0 order).drop (s.idx + 1)) + 1) +
            eulerSeg ((candCounts b0 order).drop (s.idx + 1))) := by
        unfold loopMeasure
        rw [if_pos hlt, if_pos hasg]
      have hb1strip : (s.board.setSymbol (order.getD s.idx (0, 0)) none).stripSymbols
          = b0.stripSymbols := (stripSymbols_setSymbol _ _ _).trans hinv.shape
      have hb1cand : ((s.board.setSymbol (order.getD s.idx (0, 0))
          none).candidatesAt (order.getD s.idx (0, 0))).length =
          (candCounts b0 order).getD s.idx 0 := by
        rw [candidatesAt_setSymbol, hmi]
      unfold solveTry at hstep
      cases hfv : firstValidFrom (s.board.setSymbol (order.getD s.idx (0, 0)) none)
          ((s.board.setSymbol (order.getD s.idx (0, 0)) none).cellAt
            (order.getD s.idx (0, 0)).1 (order.getD s.idx (0, 0)).2)
          ((s.board.setSymbol (order.getD s.idx (0, 0)) none).candidatesAt
            (order.getD s.idx (0, 0))) (s.ks.getD s.idx 0 + 1) with
      | some kf =>
        rw [hfv] at hstep
        injection hstep with hstep
        subst hstep
        obtain ⟨hk1kf, hkflt, -⟩ := firstValidFrom_some_spec hfv
        rw [hb1cand] at hkflt
        have hfw := loopMeasure_forward_ge
          ((s.board.setSymbol (order.getD s.idx (0, 0)) none).setSymbol
            (order.getD s.idx (0, 0))
            (some (((s.board.setSymbol (order.getD s.idx (0, 0))
              none).candidatesAt (order.getD s.idx (0, 0))).getD kf "")))
          kf hinv hlt
        rw [hmeas_s]
        have hmul : (s.ks.getD s.idx 0 + 1) *
            (eulerSeg ((candCounts b0 order).drop (s.idx + 1)) + 1) ≤
            kf * (eulerSeg ((candCounts b0 order).drop (s.idx + 1)) + 1) :=
          Nat.mul_le_mul_right _ (by omega)
        have hexp : (s.ks.getD s.idx 0 + 1) *
            (eulerSeg ((candCounts b0 order).drop (s.idx + 1)) + 1) =
            s.ks.getD s.idx 0 *
            (eulerSeg ((candCounts b0 order).drop (s.idx + 1)) + 1) +
            (eulerSeg ((candCounts b0 order).drop (s.idx + 1)) + 1) := by ring
        omega
      | none =>
        rw [hfv] at hstep
        cases hsidx : s.idx with
        | zero =>
          rw [hsidx] at hstep
          exact absurd hstep (by simp)
        | succ j =>
          rw [hsidx] at hstep
          injection hstep with hstep
          subst hstep
          have hasgj : ((s.board.setSymbol (order.getD s.idx (0, 0))
              none).symbolAt (order.getD j (0, 0))).isSome = true := by
            rw [symbolAt_setSymbol_ne _ _ (hgetne j (by omega) (by omega))]
            exact hinv.assigned_lt j (by omega)
          have hbk := loopMeasure_backtrack
            (s.board.setSymbol (order.getD s.idx (0, 0)) none)
            hinv hsidx hlt hasgj
          rw [← hsidx]
          rw [hbk, hmeas_s, hseg]
          have hmul : (s.ks.getD s.idx 0 + 1) *
              (eulerSeg ((candCounts b0 order).drop (s.idx + 1)) + 1) ≤
              ((candCounts b0 order).getD s.idx 0 + 1) *
              (eulerSeg ((candCounts b0 order).drop (s.idx + 1)) + 1) :=
            Nat.mul_le_mul_right _ (by omega)
          have hexp : (s.ks.getD s.idx 0 + 1) *
              (eulerSeg ((candCounts b0 order).drop (s.idx + 1)) + 1) =
              s.ks.getD s.idx 0 *
              (eulerSeg ((candCounts b0 order).drop (s.idx + 1)) + 1) +
              (eulerSeg ((candCounts b0 order).drop (s.idx + 1)) + 1) := by ring
          omega
    · -- fresh (unassigned) cell: scan from the stored cursor
      rw [if_neg hasg] at hstep
      have hmeas_s : loopMeasure b0 order s =
          eulerPath (candCounts b0 order) (s.ks.take s.idx) := by
        unfold loopMeasure
        rw [if_pos hlt, if_neg hasg]
        omega
      unfold solveTry at hstep
      cases hfv : firstValidFrom s.board
          (s.board.cellAt (order.getD s.idx (0, 0)).1 (order.getD s.idx (0, 0)).2)
          (s.board.candidatesAt (order.getD s.idx (0, 0)))
          (s.ks.getD s.idx 0) with
      | some kf =>
        rw [hfv] at hstep
        injection hstep with hstep
        subst hstep
        have hfw := loopMeasure_forward_ge
          (s.board.setSymbol (order.getD s.idx (0, 0))
            (some ((s.board.candidatesAt (order.getD s.idx (0, 0))).getD kf "")))
          kf hinv hlt
        rw [hmeas_s]
        omega
      | none =>
        rw [hfv] at hstep
        cases hsidx : s.idx with
        | zero =>
          rw [hsidx] at hstep
          exact absurd hstep (by simp)
        | succ j =>
          rw [hsidx] at hstep
          injection hstep with hstep
          subst hstep
          have hasgj : (s.board.symbolAt (order.getD j (0, 0))).isSome = true :=
            hinv.assigned_lt j (by omega)
          have hbk := loopMeasure_backtrack s.board hinv hsidx hlt hasgj
          rw [← hsidx]
          rw [hbk, hmeas_s]
          have := eulerSeg_pos ((candCounts b0 order).drop s.idx)
          omega

theorem solveLoop_terminates {b0 : Board} {order : List (Nat × Nat)} :
    ∀ (k : Nat) (s : SolveState), LoopInv b0 order s →
      eulerSeg (candCounts b0 order) - loopMeasure b0 order s ≤ k →
      ∃ res, solveLoop order (k + 1) s = some res := by
  intro k
  induction k with
  | zero =>
    intro s hinv hbound
    rw [solveLoop]
    cases hstep : solveStep order s with
    | done r b => exact ⟨(r, b), rfl⟩
    | next s' =>
      have hub := loopMeasure_lt_of_inv hinv
      omega
  | succ k ih =>
    intro s hinv hbound
    rw [solveLoop]
    cases hstep : solveStep order s with
    | done r b => exact ⟨(r, b), rfl⟩
    | next s' =>
      have hinv' := loopInv_step hinv hstep
      have hlt := loopMeasure_step_lt hinv hstep
      have hub' := loopMeasure_lt_of_inv hinv'
      exact ih s' hinv' (by omega)

/-- **C10.** For every grid in which each unassigned cell carries a (finite)
candidate list — in this embedding every candidate list is a finite `List` —
`Solver.solve_backtrack` terminates: the iterative loop over the
(cell, candidate-cursor) sequence cannot run forever, and the call always
returns either success or failure.  Formally: for every board and every
shuffle outcome `order` (a permutation of the empty-cell list), some finite
fuel makes the fuelled loop return `some` answer — the fuel
`eulerSeg (candCounts b0 order) + 1`, the size of the solver's search tree,
always suffices, because the loop measure strictly increases at every
iteration and is bounded by it. -/
theorem solve_backtrack_terminates (b0 : Board) (order : List (Nat × Nat))
    (hperm : order.Perm b0.emptyPositions) :
    ∃ fuel res, Solver.solve_backtrack b0 order fuel = some res := by
  by_cases hemp : b0.emptyPositions.length = 0
  · refine ⟨1, (true, b0), ?_⟩
    rw [Solver.solve_backtrack, if_pos hemp]
  · have hinv := loopInv_init hperm
    obtain ⟨res, hres⟩ := solveLoop_terminates (eulerSeg (candCounts b0 order))
      ⟨b0, List.replicate order.length 0, 0⟩ hinv (Nat.sub_le _ _)
    refine ⟨eulerSeg (candCounts b0 order) + 1, res, ?_⟩
    rw [Solver.solve_backtrack, if_neg hemp]
    exact hres

/-- The termination theorem applied at a concrete input: the empty
2×2 board with alphabet `{"1", "2"}`, visited in row-major order. -/
theorem solve_backtrack_terminates_witness :
    ∃ fuel res,
      Solver.solve_backtrack wBoard2 wBoard2.emptyPositions fuel = some res :=
  solve_backtrack_terminates wBoard2 wBoard2.emptyPositions (List.Perm.refl _)

/-! ### C2: validity of a successful run -/

theorem sameGroup_symm {nb ns r c r' c' : Nat}
    (h : sameGroup nb ns r c r' c') : sameGroup nb ns r' c' r c := by
  rcases h with h | h | h
  · exact Or.inl h.symm
  · exact Or.inr (Or.inl h.symm)
  · exact Or.inr (Or.inr h.symm)

theorem WF_of_strip_eq {b b0 : Board} (h : b.stripSymbols = b0.stripSymbols)
    (hwf : b0.WF) : b.WF := by
  obtain ⟨h1, h2, h3, h4⟩ := hwf
  have hsize : b.size = b0.size := by
    have hh := congrArg Board.size h
    exact hh
  have hnb : b.num_bands = b0.num_bands := by
    have hh := congrArg Board.num_bands h
    exact hh
  have hns : b.num_stacks = b0.num_stacks := by
    have hh := congrArg Board.num_stacks h
    exact hh
  refine ⟨?_, ?_, ?_, ?_⟩
  · rw [strip_cells_length h, hsize]
    exact h1
  · intro r hr
    rw [strip_row_length h, hsize]
    rw [hsize] at hr
    exact h2 r hr
  · intro r hr c hc
    rw [hsize] at hr hc
    have hcc : ({ b.cellAt r c with symbol := none } : Cell) =
        { b0.cellAt r c with symbol := none } := by
      rw [← stripSymbols_cellAt b r c, ← stripSymbols_cellAt b0 r c, h]
    have hrow : (b.cellAt r c).row = (b0.cellAt r c).row := by
      have hh := congrArg Cell.row hcc
      exact hh
    have hcol : (b.cellAt r c).col = (b0.cellAt r c).col := by
      have hh := congrArg Cell.col hcc
      exact hh
    have hbox : (b.cellAt r c).box = (b0.cellAt r c).box := by
      have hh := congrArg Cell.box hcc
      exact hh
    obtain ⟨hr0, hc0, hb0⟩ := h3 r hr c hc
    refine ⟨hrow.trans hr0, hcol.trans hc0, ?_⟩
    rw [hbox, hb0, hnb, hns]
  · rw [hnb, hns, hsize]
    exact h4

theorem inRange_of_lt {b : Board} (hwf : b.WF) {p : Nat × Nat}
    (h1 : p.1 < b.size) (h2 : p.2 < b.size) : b.inRange p := by
  obtain ⟨hl, hrow, -, -⟩ := hwf
  refine ⟨?_, ?_⟩
  · rw [hl]
    exact h1
  · rw [hrow p.1 h1]
    exact h2

theorem lt_of_inRange {b : Board} (hwf : b.WF) {p : Nat × Nat}
    (h : b.inRange p) : p.1 < b.size ∧ p.2 < b.size := by
  obtain ⟨hl, hrow, -, -⟩ := hwf
  obtain ⟨h1, h2⟩ := h
  rw [hl] at h1
  refine ⟨h1, ?_⟩
  rw [hrow p.1 h1] at h2
  exact h2

theorem symbolAt_set_none_eq_or (b : Board) (p q : Nat × Nat) :
    (b.setSymbol p none).symbolAt q = none ∨
    (b.setSymbol p none).symbolAt q = b.symbolAt q := by
  by_cases hq : q = p
  · subst hq
    by_cases hin : b.inRange q
    · exact Or.inl (symbolAt_setSymbol_self b none hin)
    · rw [setSymbol_oob none hin]
      exact Or.inr rfl
  · exact Or.inr (symbolAt_setSymbol_ne b none hq)

/-- The validity check of the solver, characterised on positions: for a
well-formed grid, `is_candidate_valid` accepts `cand` at cell `(r, c)`
exactly when no *other* in-range position sharing a row, column, or box
with `(r, c)` is assigned `cand`. -/
theorem is_candidate_valid_iff {b : Board} (hwf : b.WF) {r c : Nat}
    (hr : r < b.size) (hc : c < b.size) (cand : String) :
    Solver.is_candidate_valid b cand (b.cellAt r c) = true ↔
      ∀ r', r' < b.size → ∀ c', c' < b.size → (r', c') ≠ (r, c) →
        sameGroup b.num_bands b.num_stacks r' c' r c →
        b.symbolAt (r', c') ≠ some cand := by
  have h3 := hwf.2.2.1
  obtain ⟨hrow, hcol, hbox⟩ := h3 r hr c hc
  unfold Solver.is_candidate_valid
  rw [hrow, hcol, hbox]
  simp only [Bool.and_eq_true, List.all_eq_true]
  constructor
  · rintro ⟨⟨hA, hB⟩, hC⟩
    intro r' hr' c' hc' hne hsg heq
    obtain ⟨hrow', hcol', hbox'⟩ := h3 r' hr' c' hc'
    rcases hsg with h | h | h
    · -- same row
      have hq : b.cellAt r' c' ∈ b.rowCells r := by
        rw [mem_rowCells_iff hwf hr]
        exact ⟨c', hc', by rw [← h]⟩
      have hh := hA (b.cellAt r' c') hq
      rw [hrow', hcol'] at hh
      simp only [Bool.or_eq_true, Bool.and_eq_true, beq_iff_eq,
        Bool.not_eq_true', beq_eq_false_iff_ne] at hh
      rcases hh with ⟨hrr, hcc⟩ | hne2
      · exact hne (by rw [hrr, hcc])
      · exact hne2 heq
    · -- same column
      have hq : b.cellAt r' c' ∈ b.colCells c := by
        rw [mem_colCells_iff hwf hc]
        exact ⟨r', hr', by rw [← h]⟩
      have hh := hB (b.cellAt r' c') hq
      rw [hrow', hcol'] at hh
      simp only [Bool.or_eq_true, Bool.and_eq_true, beq_iff_eq,
        Bool.not_eq_true', beq_eq_false_iff_ne] at hh
      rcases hh with ⟨hrr, hcc⟩ | hne2
      · exact hne (by rw [hrr, hcc])
      · exact hne2 heq
    · -- same box
      have hq : b.cellAt r' c' ∈
          b.boxCells (boxIdOf b.num_bands b.num_stacks r c) := by
        rw [mem_boxCells_iff hwf]
        refine ⟨⟨r', c', hr', hc', rfl⟩, ?_⟩
        rw [hbox']
        exact h
      have hh := hC (b.cellAt r' c') hq
      rw [hrow', hcol'] at hh
      simp only [Bool.or_eq_true, Bool.and_eq_true, beq_iff_eq,
        Bool.not_eq_true', beq_eq_false_iff_ne] at hh
      rcases hh with ⟨hrr, hcc⟩ | hne2
      · exact hne (by rw [hrr, hcc])
      · exact hne2 heq
  · intro h
    refine ⟨⟨?_, ?_⟩, ?_⟩
    · intro q hq
      rw [mem_rowCells_iff hwf hr] at hq
      obtain ⟨c', hc', hqeq⟩ := hq
      obtain ⟨hrow', hcol', -⟩ := h3 r hr c' hc'
      rw [← hqeq, hrow', hcol']
      by_cases hcc : c' = c
      · subst hcc
        simp
      · have hne2 := h r hr c' hc'
          (by simp only [ne_eq, Prod.mk.injEq, not_and]
              intro
              exact hcc)
          (Or.inl rfl)
        simp only [Bool.or_eq_true, Bool.and_eq_true, beq_iff_eq,
          Bool.not_eq_true', beq_eq_false_iff_ne]
        exact Or.inr hne2
    · intro q hq
      rw [mem_colCells_iff hwf hc] at hq
      obtain ⟨r', hr', hqeq⟩ := hq
      obtain ⟨hrow', hcol', -⟩ := h3 r' hr' c hc
      rw [← hqeq, hrow', hcol']
      by_cases hrr : r' = r
      · subst hrr
        simp
      · have hne2 := h r' hr' c hc
          (by simp only [ne_eq, Prod.mk.injEq, not_and]
              intro hx
              exact absurd hx hrr)
          (Or.inr (Or.inl rfl))
        simp only [Bool.or_eq_true, Bool.and_eq_true, beq_iff_eq,
          Bool.not_eq_true', beq_eq_false_iff_ne]
        exact Or.inr hne2
    · intro q hq
      rw [mem_boxCells_iff hwf] at hq
      obtain ⟨⟨r', c', hr', hc', hqeq⟩, hqbx⟩ := hq
      obtain ⟨hrow', hcol', hbox'⟩ := h3 r' hr' c' hc'
      rw [← hqeq] at hqbx ⊢
      rw [hrow', hcol']
      rw [hbox'] at hqbx
      by_cases hp : (r', c') = (r, c)
      · have h1 : r' = r := congrArg Prod.fst hp
        have h2 : c' = c := congrArg Prod.snd hp
        subst h1
        subst h2
        simp
      · have hne2 := h r' hr' c' hc' hp (Or.inr (Or.inr hqbx))
        simp only [Bool.or_eq_true, Bool.and_eq_true, beq_iff_eq,
          Bool.not_eq_true', beq_eq_false_iff_ne]
        exact Or.inr hne2

theorem validIdx_clear {b : Board} (hv : b.ValidIdx) (p : Nat × Nat) :
    (b.setSymbol p none).ValidIdx := by
  intro r hr c hc r' hr' c' hc' hne hsg
  cases hA : (b.setSymbol p none).symbolAt (r, c) with
  | none => exact Or.inl rfl
  | some v =>
    refine Or.inr ?_
    cases hB : (b.setSymbol p none).symbolAt (r', c') with
    | none => simp
    | some w =>
      have hA' : b.symbolAt (r, c) = some v := by
        rcases symbolAt_set_none_eq_or b p (r, c) with h | h
        · rw [h] at hA
          exact absurd hA (by simp)
        · rw [← h]
          exact hA
      have hB' : b.symbolAt (r', c') = some w := by
        rcases symbolAt_set_none_eq_or b p (r', c') with h | h
        · rw [h] at hB
          exact absurd hB (by simp)
        · rw [← h]
          exact hB
      rcases hv r hr c hc r' hr' c' hc' hne hsg with h | h
      · rw [hA'] at h
        exact absurd h (by simp)
      · rw [hA', hB'] at h
        exact h

theorem validIdx_place {b : Board} (hwf : b.WF) (hv : b.ValidIdx)
    {p : Nat × Nat} (hp1 : p.1 < b.size) (hp2 : p.2 < b.size) {cand : String}
    (hval : Solver.is_candidate_valid b cand (b.cellAt p.1 p.2) = true) :
    (b.setSymbol p (some cand)).ValidIdx := by
  have hbridge := (is_candidate_valid_iff hwf hp1 hp2 cand).1 hval
  have hin : b.inRange p := inRange_of_lt hwf hp1 hp2
  intro r hr c hc r' hr' c' hc' hne hsg
  by_cases h1 : (r, c) = p
  · have hne' : (r', c') ≠ p := by
      rw [← h1]
      exact fun hh => hne hh.symm
    refine Or.inr ?_
    rw [h1, symbolAt_setSymbol_self b _ hin,
      symbolAt_setSymbol_ne b _ hne']
    have hrp : r = p.1 := congrArg Prod.fst h1
    have hcp : c = p.2 := congrArg Prod.snd h1
    rw [hrp, hcp] at hsg
    have hne'' : (r', c') ≠ (p.1, p.2) := by
      intro hh
      exact hne' (hh.trans rfl)
    have hres := hbridge r' hr' c' hc' hne'' (sameGroup_symm hsg)
    intro heq
    exact hres heq.symm
  · by_cases h2 : (r', c') = p
    · refine Or.inr ?_
      rw [symbolAt_setSymbol_ne b _ h1, h2, symbolAt_setSymbol_self b _ hin]
      have hrp : r' = p.1 := congrArg Prod.fst h2
      have hcp : c' = p.2 := congrArg Prod.snd h2
      rw [hrp, hcp] at hsg
      have hne'' : (r, c) ≠ (p.1, p.2) := by
        intro hh
        exact h1 (hh.trans rfl)
      exact hbridge r hr c hc hne'' hsg
    · rw [symbolAt_setSymbol_ne b _ h1, symbolAt_setSymbol_ne b _ h2]
      exact hv r hr c hc r' hr' c' hc' hne hsg

theorem validIdx_try {order : List (Nat × Nat)} {b1 : Board} {ks : List Nat}
    {idx k1 : Nat} {s' : SolveState}
    (hwf1 : b1.WF) (hv1 : b1.ValidIdx)
    (hp1 : (order.getD idx (0, 0)).1 < b1.size)
    (hp2 : (order.getD idx (0, 0)).2 < b1.size)
    (hstep : solveTry order b1 ks idx k1 = .next s') : s'.board.ValidIdx := by
  unfold solveTry at hstep
  cases hfv : firstValidFrom b1
      (b1.cellAt (order.getD idx (0, 0)).1 (order.getD idx (0, 0)).2)
      (b1.candidatesAt (order.getD idx (0, 0))) k1 with
  | some kf =>
    rw [hfv] at hstep
    injection hstep with hstep
    subst hstep
    obtain ⟨-, -, hval⟩ := firstValidFrom_some_spec hfv
    exact validIdx_place hwf1 hv1 hp1 hp2 hval
  | none =>
    rw [hfv] at hstep
    cases idx with
    | zero => exact absurd hstep (by simp)
    | succ j =>
      injection hstep with hstep
      subst hstep
      exact hv1

theorem validIdx_step {b0 : Board} {order : List (Nat × Nat)} {s s' : SolveState}
    (hwf0 : b0.WF) (hinv : LoopInv b0 order s) (hv : s.board.ValidIdx)
    (hstep : solveStep order s = .next s') : s'.board.ValidIdx := by
  unfold solveStep at hstep
  by_cases hge : s.idx ≥ order.length
  · rw [if_pos hge] at hstep
    exact absurd hstep (by simp)
  · rw [if_neg hge] at hstep
    have hlt : s.idx < order.length := by omega
    have hpmem := hinv.order_mem _ (getD_mem order hlt (0, 0))
    rw [mem_emptyPositions] at hpmem
    have hwfs : s.board.WF := WF_of_strip_eq hinv.shape hwf0
    have hlt0 := lt_of_inRange hwf0 hpmem.1
    have hsize : s.board.size = b0.size := by
      have hh := congrArg Board.size hinv.shape
      exact hh
    have hp1 : (order.getD s.idx (0, 0)).1 < s.board.size := by
      rw [hsize]
      exact hlt0.1
    have hp2 : (order.getD s.idx (0, 0)).2 < s.board.size := by
      rw [hsize]
      exact hlt0.2
    by_cases hasg : (s.board.symbolAt (order.getD s.idx (0, 0))).isSome = true
    · rw [if_pos hasg] at hstep
      have hwf1 : (s.board.setSymbol (order.getD s.idx (0, 0)) none).WF :=
        WF_setSymbol hwfs _ _
      have hv1 := validIdx_clear hv (order.getD s.idx (0, 0))
      exact validIdx_try hwf1 hv1 hp1 hp2 hstep
    · rw [if_neg hasg] at hstep
      exact validIdx_try hwfs hv hp1 hp2 hstep

theorem solveLoop_true_spec {b0 : Board} {order : List (Nat × Nat)}
    (hwf : b0.WF) (hne : order ≠ []) :
    ∀ (fuel : Nat) (s : SolveState) (bf : Board),
      LoopInv b0 order s → s.board.ValidIdx →
      solveLoop order fuel s = some (true, bf) →
      bf.ValidIdx ∧ bf.stripSymbols = b0.stripSymbols ∧
      (∀ j, j < order.length → ∃ v, bf.symbolAt (order.getD j (0, 0)) = some v ∧
        v ∈ bf.candidatesAt (order.getD j (0, 0))) ∧
      (∀ p, p ∉ order → bf.symbolAt p = b0.symbolAt p) := by
  intro fuel
  induction fuel with
  | zero =>
    intro s bf _ _ hrun
    simp [solveLoop] at hrun
  | succ fuel ih =>
    intro s bf hinv hv hrun
    rw [solveLoop] at hrun
    cases hstep : solveStep order s with
    | done r b =>
      rw [hstep] at hrun
      injection hrun with hrun
      have hr : r = true := congrArg Prod.fst hrun
      have hb : b = bf := congrArg Prod.snd hrun
      subst hr
      subst hb
      rcases loopInv_done hinv hne hstep with ⟨hfalse, -⟩ | ⟨-, hidx, hbf⟩
      · exact absurd hfalse (by simp)
      · refine ⟨?_, ?_, ?_, ?_⟩
        · rw [hbf]
          exact hv
        · rw [hbf]
          exact hinv.shape
        · intro j hj
          rw [hbf]
          exact hinv.sym_mem j (by omega)
        · intro p hp
          rw [hbf]
          exact hinv.frame p hp
    | next s' =>
      rw [hstep] at hrun
      exact ih s' bf (loopInv_step hinv hstep) (validIdx_step hwf hinv hv hstep)
        hrun

theorem exists_unique_range_pigeonhole {N : Nat} {syms : Finset String}
    (hsyms : syms.card ≤ N) (f : Nat → Option String)
    (hall : ∀ i, i < N → ∃ v, f i = some v ∧ v ∈ syms)
    (hinj : ∀ i, i < N → ∀ j, j < N → i ≠ j → f i ≠ f j) :
    ∀ v, v ∈ syms → ∃! i, i < N ∧ f i = some v := by
  have himg : (Finset.range N).image (fun i => (f i).getD "") ⊆ syms := by
    intro v hv
    rw [Finset.mem_image] at hv
    obtain ⟨i, hi, hgi⟩ := hv
    rw [Finset.mem_range] at hi
    obtain ⟨w, hw, hwmem⟩ := hall i hi
    rw [hw] at hgi
    simp only [Option.getD_some] at hgi
    rw [← hgi]
    exact hwmem
  have hinjOn : Set.InjOn (fun i => (f i).getD "")
      (↑(Finset.range N) : Set Nat) := by
    intro i hi j hj hij
    simp only [Finset.coe_range, Set.mem_Iio] at hi hj
    by_contra hne
    obtain ⟨vi, hvi, -⟩ := hall i hi
    obtain ⟨vj, hvj, -⟩ := hall j hj
    apply hinj i hi j hj hne
    simp only [hvi, hvj, Option.getD_some] at hij
    rw [hvi, hvj, hij]
  have hcard : ((Finset.range N).image (fun i => (f i).getD "")).card = N := by
    rw [Finset.card_image_of_injOn hinjOn, Finset.card_range]
  have heq : (Finset.range N).image (fun i => (f i).getD "") = syms :=
    Finset.eq_of_subset_of_card_le himg (by rw [hcard]; exact hsyms)
  intro v hv
  rw [← heq, Finset.mem_image] at hv
  obtain ⟨i, hi, hgi⟩ := hv
  rw [Finset.mem_range] at hi
  obtain ⟨w, hw, -⟩ := hall i hi
  have hfv : f i = some v := by
    rw [hw] at hgi ⊢
    simp only [Option.getD_some] at hgi
    rw [hgi]
  refine ⟨i, ⟨hi, hfv⟩, ?_⟩
  rintro j ⟨hj, hfj⟩
  by_contra hne
  exact hinj j hj i hi hne (hfj.trans hfv.symm)

theorem boxPos_fst_lt {nb ns bx i : Nat} (hbx : bx < nb * ns)
    (hi : i < nb * ns) : (boxPos nb ns bx i).1 < nb * ns := by
  have hns : 0 < ns := by
    rcases Nat.eq_zero_or_pos ns with h | h
    · rw [h, Nat.mul_zero] at hbx
      omega
    · exact h
  have hnb : 0 < nb := by
    rcases Nat.eq_zero_or_pos nb with h | h
    · rw [h, Nat.zero_mul] at hbx
      omega
    · exact h
  have h1 : bx / ns < nb := (Nat.div_lt_iff_lt_mul hns).2 hbx
  have h2 : i / nb < ns := (Nat.div_lt_iff_lt_mul hnb).2
    (by rw [Nat.mul_comm ns nb]; exact hi)
  have h3 : (bx / ns + 1) * ns ≤ nb * ns := Nat.mul_le_mul_right _ (by omega)
  have h4 : (bx / ns + 1) * ns = bx / ns * ns + ns := by ring
  show bx / ns * ns + i / nb < nb * ns
  omega

theorem boxPos_snd_lt {nb ns bx i : Nat} (hbx : bx < nb * ns)
    (_hi : i < nb * ns) : (boxPos nb ns bx i).2 < nb * ns := by
  have hns : 0 < ns := by
    rcases Nat.eq_zero_or_pos ns with h | h
    · rw [h, Nat.mul_zero] at hbx
      omega
    · exact h
  have hnb : 0 < nb := by
    rcases Nat.eq_zero_or_pos nb with h | h
    · rw [h, Nat.zero_mul] at hbx
      omega
    · exact h
  have h1 : bx % ns < ns := Nat.mod_lt _ hns
  have h2 : i % nb < nb := Nat.mod_lt _ hnb
  have h3 : (bx % ns + 1) * nb ≤ ns * nb := Nat.mul_le_mul_right _ (by omega)
  have h4 : (bx % ns + 1) * nb = bx % ns * nb + nb := by ring
  have h5 : ns * nb = nb * ns := Nat.mul_comm _ _
  show bx % ns * nb + i % nb < nb * ns
  omega

theorem boxPos_boxId {nb ns bx i : Nat} (hbx : bx < nb * ns)
    (hi : i < nb * ns) :
    boxIdOf nb ns (boxPos nb ns bx i).1 (boxPos nb ns bx i).2 = bx := by
  have hns : 0 < ns := by
    rcases Nat.eq_zero_or_pos ns with h | h
    · rw [h, Nat.mul_zero] at hbx
      omega
    · exact h
  have hnb : 0 < nb := by
    rcases Nat.eq_zero_or_pos nb with h | h
    · rw [h, Nat.zero_mul] at hbx
      omega
    · exact h
  have h2 : i / nb < ns := (Nat.div_lt_iff_lt_mul hnb).2
    (by rw [Nat.mul_comm ns nb]; exact hi)
  show (bx / ns * ns + i / nb) / ns * ns + (bx % ns * nb + i % nb) / nb = bx
  have h3 : (bx / ns * ns + i / nb) / ns = bx / ns := by
    rw [Nat.mul_comm (bx / ns) ns, Nat.mul_add_div hns,
      Nat.div_eq_of_lt h2, Nat.add_zero]
  have h4 : (bx % ns * nb + i % nb) / nb = bx % ns := by
    rw [Nat.mul_comm (bx % ns) nb, Nat.mul_add_div hnb,
      Nat.div_eq_of_lt (Nat.mod_lt _ hnb), Nat.add_zero]
  rw [h3, h4]
  have h5 := Nat.div_add_mod bx ns
  have h6 : bx / ns * ns = ns * (bx / ns) := Nat.mul_comm _ _
  omega

theorem boxPos_inj {nb ns bx i j : Nat} (_hi : i < nb * ns)
    (_hj : j < nb * ns)
    (h : boxPos nb ns bx i = boxPos nb ns bx j) : i = j := by
  have h1 : bx / ns * ns + i / nb = bx / ns * ns + j / nb := congrArg Prod.fst h
  have h2 : bx % ns * nb + i % nb = bx % ns * nb + j % nb := congrArg Prod.snd h
  have h3 : i / nb = j / nb := by omega
  have h4 : i % nb = j % nb := by omega
  have h5 := Nat.div_add_mod i nb
  have h6 := Nat.div_add_mod j nb
  have h7 : nb * (i / nb) = nb * (j / nb) := by rw [h3]
  omega

theorem boxPos_surj {nb ns bx : Nat} {p : Nat × Nat} (hp1 : p.1 < nb * ns)
    (hp2 : p.2 < nb * ns) (hbox : boxIdOf nb ns p.1 p.2 = bx) :
    ∃ i, i < nb * ns ∧ boxPos nb ns bx i = p := by
  obtain ⟨x, y⟩ := p
  simp only at hp1 hp2
  have hns : 0 < ns := by
    rcases Nat.eq_zero_or_pos ns with h | h
    · rw [h, Nat.mul_zero] at hp1
      omega
    · exact h
  have hnb : 0 < nb := by
    rcases Nat.eq_zero_or_pos nb with h | h
    · rw [h, Nat.zero_mul] at hp1
      omega
    · exact h
  have hq : y / nb < ns := (Nat.div_lt_iff_lt_mul hnb).2
    (by rw [Nat.mul_comm ns nb]; exact hp2)
  have hde : x / ns * ns + y / nb = bx := hbox
  have hdm1 : bx / ns = x / ns := by
    rw [← hde, Nat.mul_comm (x / ns) ns, Nat.mul_add_div hns,
      Nat.div_eq_of_lt hq, Nat.add_zero]
  have hdm2 : bx % ns = y / nb := by
    rw [← hde, Nat.mul_comm (x / ns) ns, Nat.mul_add_mod,
      Nat.mod_eq_of_lt hq]
  refine ⟨x % ns * nb + y % nb, ?_, ?_⟩
  · have h1 : x % ns < ns := Nat.mod_lt _ hns
    have h2 : y % nb < nb := Nat.mod_lt _ hnb
    have h3 : (x % ns + 1) * nb ≤ ns * nb := Nat.mul_le_mul_right _ (by omega)
    have h4 : (x % ns + 1) * nb = x % ns * nb + nb := by ring
    have h5 : ns * nb = nb * ns := Nat.mul_comm _ _
    omega
  · show (bx / ns * ns + (x % ns * nb + y % nb) / nb,
        bx % ns * nb + (x % ns * nb + y % nb) % nb) = (x, y)
    have hdiv2 : (x % ns * nb + y % nb) / nb = x % ns := by
      rw [Nat.mul_comm (x % ns) nb, Nat.mul_add_div hnb,
        Nat.div_eq_of_lt (Nat.mod_lt _ hnb), Nat.add_zero]
    have hmod2 : (x % ns * nb + y % nb) % nb = y % nb := by
      rw [Nat.mul_comm (x % ns) nb, Nat.mul_add_mod,
        Nat.mod_eq_of_lt (Nat.mod_lt _ hnb)]
    rw [hdiv2, hmod2, hdm1, hdm2]
    have e1 := Nat.div_add_mod x ns
    have e2 := Nat.div_add_mod y nb
    have c1 : x / ns * ns = ns * (x / ns) := Nat.mul_comm _ _
    have c2 : y / nb * nb = nb * (y / nb) := Nat.mul_comm _ _
    simp only [Prod.mk.injEq]
    constructor
    · omega
    · omega

theorem groups_exactly_once {N nb ns : Nat} {syms : Finset String}
    {f : Nat × Nat → Option String}
    (hN : nb * ns = N)
    (hsyms : syms.card ≤ N)
    (hall : ∀ r, r < N → ∀ c, c < N → ∃ v, f (r, c) = some v ∧ v ∈ syms)
    (hdist : ∀ r, r < N → ∀ c, c < N → ∀ r', r' < N → ∀ c', c' < N →
      (r, c) ≠ (r', c') → sameGroup nb ns r c r' c' → f (r, c) ≠ f (r', c')) :
    ∀ v, v ∈ syms →
      (∀ r, r < N → ∃! c, c < N ∧ f (r, c) = some v) ∧
      (∀ c, c < N → ∃! r, r < N ∧ f (r, c) = some v) ∧
      (∀ bx, bx < N → ∃! p : Nat × Nat, p.1 < N ∧ p.2 < N ∧
        boxIdOf nb ns p.1 p.2 = bx ∧ f p = some v) := by
  subst hN
  intro v hv
  refine ⟨?_, ?_, ?_⟩
  · intro r hr
    exact exists_unique_range_pigeonhole hsyms (fun c => f (r, c))
      (fun c hc => hall r hr c hc)
      (fun i hi j hj hne => hdist r hr i hi r hr j hj
        (by simp only [ne_eq, Prod.mk.injEq, not_and]
            intro
            exact hne)
        (Or.inl rfl)) v hv
  · intro c hc
    exact exists_unique_range_pigeonhole hsyms (fun r => f (r, c))
      (fun i hi => hall i hi c hc)
      (fun i hi j hj hne => hdist i hi c hc j hj c hc
        (by simp only [ne_eq, Prod.mk.injEq, not_and]
            intro hx
            exact absurd hx hne)
        (Or.inr (Or.inl rfl))) v hv
  · intro bx hbx
    have hEU := exists_unique_range_pigeonhole hsyms
      (fun i => f (boxPos nb ns bx i))
      (fun i hi => hall _ (boxPos_fst_lt hbx hi) _ (boxPos_snd_lt hbx hi))
      (fun i hi j hj hne => hdist _ (boxPos_fst_lt hbx hi)
        _ (boxPos_snd_lt hbx hi) _ (boxPos_fst_lt hbx hj)
        _ (boxPos_snd_lt hbx hj)
        (fun hcon => hne (boxPos_inj hi hj hcon))
        (Or.inr (Or.inr
          ((boxPos_boxId hbx hi).trans (boxPos_boxId hbx hj).symm)))) v hv
    obtain ⟨i, ⟨hi, hfi⟩, huniq⟩ := hEU
    refine ⟨boxPos nb ns bx i, ⟨boxPos_fst_lt hbx hi, boxPos_snd_lt hbx hi,
      boxPos_boxId hbx hi, hfi⟩, ?_⟩
    rintro p ⟨hp1, hp2, hpbox, hpf⟩
    obtain ⟨j, hj, hbpj⟩ := boxPos_surj hp1 hp2 hpbox
    have hji : j = i := huniq j ⟨hj, by rw [← hbpj] at hpf; exact hpf⟩
    rw [← hbpj, hji]

theorem dist_of_validIdx {bf : Board} {N nb ns : Nat}
    (hsize : bf.size = N) (hnb : bf.num_bands = nb) (hns : bf.num_stacks = ns)
    (hvbf : bf.ValidIdx)
    (hfull : ∀ r, r < N → ∀ c, c < N → ∃ v, bf.symbolAt (r, c) = some v) :
    ∀ r, r < N → ∀ c, c < N → ∀ r', r' < N → ∀ c', c' < N →
      (r, c) ≠ (r', c') → sameGroup nb ns r c r' c' →
      bf.symbolAt (r, c) ≠ bf.symbolAt (r', c') := by
  subst hsize
  subst hnb
  subst hns
  intro r hr c hc r' hr' c' hc' hne hsg
  rcases hvbf r hr c hc r' hr' c' hc' hne hsg with h | h
  · obtain ⟨v, hv1⟩ := hfull r hr c hc
    rw [h] at hv1
    exact absurd hv1 (by simp)
  · exact h

/-- **C2.** For every grid that is valid at entry — well-formed
(`Board.WF`, with the constructor's invariant that the alphabet length is
the grid dimension), no two cells in the same row, column, or box group
hold equal assigned symbols, and every assigned symbol and every
candidate-list entry is an alphabet symbol — if `Solver.solve_backtrack`
(run over a shuffle `order` of the empty-cell list) returns success, then
the resulting grid is valid (so in particular every originally-unassigned
cell holds a symbol consistent with all its groups), every cell holds an
alphabet symbol, and every row, column, and box group contains each
alphabet symbol exactly once. -/
theorem solve_backtrack_success_valid (b0 : Board) (order : List (Nat × Nat))
    (fuel : Nat) (bf : Board)
    (hwf : b0.WF)
    (hlen : b0.symbols.length = b0.size)
    (hperm : order.Perm b0.emptyPositions)
    (hvalid : b0.ValidIdx)
    (hsym : ∀ r, r < b0.size → ∀ c, c < b0.size → ∀ v,
      b0.symbolAt (r, c) = some v → v ∈ b0.symbols)
    (hcand : ∀ r, r < b0.size → ∀ c, c < b0.size → ∀ v,
      v ∈ b0.candidatesAt (r, c) → v ∈ b0.symbols)
    (hrun : Solver.solve_backtrack b0 order fuel = some (true, bf)) :
    bf.ValidIdx ∧
    (∀ r, r < b0.size → ∀ c, c < b0.size →
      ∃ v, bf.symbolAt (r, c) = some v ∧ v ∈ b0.symbols) ∧
    (∀ v, v ∈ b0.symbols →
      (∀ r, r < b0.size → ∃! c, c < b0.size ∧ bf.symbolAt (r, c) = some v) ∧
      (∀ c, c < b0.size → ∃! r, r < b0.size ∧ bf.symbolAt (r, c) = some v) ∧
      (∀ bx, bx < b0.size → ∃! p : Nat × Nat, p.1 < b0.size ∧ p.2 < b0.size ∧
        boxIdOf b0.num_bands b0.num_stacks p.1 p.2 = bx ∧
        bf.symbolAt p = some v)) := by
  have hsymsF : (b0.symbols.toFinset).card ≤ b0.size :=
    le_trans (List.toFinset_card_le b0.symbols) (le_of_eq hlen)
  unfold Solver.solve_backtrack at hrun
  by_cases hemp : b0.emptyPositions.length = 0
  · rw [if_pos hemp] at hrun
    injection hrun with hrun
    have hb : b0 = bf := congrArg Prod.snd hrun
    subst hb
    have hnil : b0.emptyPositions = [] := List.length_eq_zero.1 hemp
    have hfull : ∀ r, r < b0.size → ∀ c, c < b0.size →
        ∃ v, b0.symbolAt (r, c) = some v ∧ v ∈ b0.symbols := by
      intro r hr c hc
      cases hs : b0.symbolAt (r, c) with
      | none =>
        exfalso
        have hmem : (r, c) ∈ b0.emptyPositions :=
          mem_emptyPositions.2 ⟨inRange_of_lt hwf hr hc, hs⟩
        rw [hnil] at hmem
        exact List.not_mem_nil _ hmem
      | some v => exact ⟨v, rfl, hsym r hr c hc v hs⟩
    have hdist := dist_of_validIdx rfl rfl rfl hvalid
      (fun r hr c hc => ⟨(hfull r hr c hc).choose, (hfull r hr c hc).choose_spec.1⟩)
    have hmain := groups_exactly_once hwf.2.2.2 hsymsF
      (fun r hr c hc => by
        obtain ⟨v, h1, h2⟩ := hfull r hr c hc
        exact ⟨v, h1, List.mem_toFinset.2 h2⟩) hdist
    exact ⟨hvalid, hfull, fun v hv => hmain v (List.mem_toFinset.2 hv)⟩
  · rw [if_neg hemp] at hrun
    have hne : order ≠ [] := by
      intro hcn
      rw [hcn] at hperm
      have hlen0 := hperm.length_eq
      simp only [List.length_nil] at hlen0
      exact hemp hlen0.symm
    have hinv0 := loopInv_init hperm
    obtain ⟨hvbf, hshape, hassigned, hframe⟩ :=
      solveLoop_true_spec hwf hne fuel _ bf hinv0 hvalid hrun
    have hfull : ∀ r, r < b0.size → ∀ c, c < b0.size →
        ∃ v, bf.symbolAt (r, c) = some v ∧ v ∈ b0.symbols := by
      intro r hr c hc
      by_cases hmem : (r, c) ∈ order
      · rw [mem_iff_getD order (0, 0)] at hmem
        obtain ⟨j, hj, hgd⟩ := hmem
        obtain ⟨v, hv1, hv2⟩ := hassigned j hj
        rw [hgd] at hv1 hv2
        refine ⟨v, hv1, ?_⟩
        rw [strip_candidatesAt hshape] at hv2
        exact hcand r hr c hc v hv2
      · have hfr := hframe (r, c) hmem
        cases hs : b0.symbolAt (r, c) with
        | none =>
          exfalso
          have hmem' : (r, c) ∈ b0.emptyPositions :=
            mem_emptyPositions.2 ⟨inRange_of_lt hwf hr hc, hs⟩
          exact hmem (hperm.mem_iff.2 hmem')
        | some v =>
          exact ⟨v, by rw [hfr, hs], hsym r hr c hc v hs⟩
    have hsize : bf.size = b0.size := by
      have hh := congrArg Board.size hshape
      exact hh
    have hnb : bf.num_bands = b0.num_bands := by
      have hh := congrArg Board.num_bands hshape
      exact hh
    have hns : bf.num_stacks = b0.num_stacks := by
      have hh := congrArg Board.num_stacks hshape
      exact hh
    have hdist := dist_of_validIdx hsize hnb hns hvbf
      (fun r hr c hc => ⟨(hfull r hr c hc).choose, (hfull r hr c hc).choose_spec.1⟩)
    have hmain := groups_exactly_once hwf.2.2.2 hsymsF
      (fun r hr c hc => by
        obtain ⟨v, h1, h2⟩ := hfull r hr c hc
        exact ⟨v, h1, List.mem_toFinset.2 h2⟩) hdist
    exact ⟨hvbf, hfull, fun v hv => hmain v (List.mem_toFinset.2 hv)⟩

/-- The success-validity theorem applied at a concrete input: the solved
1×1 board over the alphabet `["1"]`, for which `solve_backtrack` succeeds
immediately (no empty cells). -/
theorem solve_backtrack_success_valid_witness :
    wBoard1a.ValidIdx ∧
    (∀ r, r < wBoard1a.size → ∀ c, c < wBoard1a.size →
      ∃ v, wBoard1a.symbolAt (r, c) = some v ∧ v ∈ wBoard1a.symbols) ∧
    (∀ v, v ∈ wBoard1a.symbols →
      (∀ r, r < wBoard1a.size →
        ∃! c, c < wBoard1a.size ∧ wBoard1a.symbolAt (r, c) = some v) ∧
      (∀ c, c < wBoard1a.size →
        ∃! r, r < wBoard1a.size ∧ wBoard1a.symbolAt (r, c) = some v) ∧
      (∀ bx, bx < wBoard1a.size →
        ∃! p : Nat × Nat, p.1 < wBoard1a.size ∧ p.2 < wBoard1a.size ∧
          boxIdOf wBoard1a.num_bands wBoard1a.num_stacks p.1 p.2 = bx ∧
          wBoard1a.symbolAt p = some v)) :=
  solve_backtrack_success_valid wBoard1a [] 1 wBoard1a
    (by decide) (by decide) (by decide) (by decide)
    (by
      intro r hr c hc v hv
      have hsz : wBoard1a.size = 1 := by decide
      rw [hsz] at hr hc
      have hr0 : r = 0 := by omega
      have hc0 : c = 0 := by omega
      subst hr0
      subst hc0
      have hval : wBoard1a.symbolAt (0, 0) = some "1" := by decide
      rw [hval] at hv
      injection hv with hv
      rw [← hv]
      decide)
    (by
      intro r hr c hc v hv
      have hsz : wBoard1a.size = 1 := by decide
      rw [hsz] at hr hc
      have hr0 : r = 0 := by omega
      have hc0 : c = 0 := by omega
      subst hr0
      subst hc0
      have hcd : wBoard1a.candidatesAt (0, 0) = [] := by decide
      rw [hcd] at hv
      exact absurd hv (List.not_mem_nil v))
    (by decide)

/-! ### C3 and C4: the reducer -/

theorem reduce_cell_eq (solveFn : Board → Bool) (b : Board) (r c : Nat) :
    Reducer.reduce_cell solveFn b r c =
      if (b.cellAt r c).symbol = none then (false, b)
      else if (b.calculate_cell_candidates (b.cellAt r c)).any (fun v =>
        solveFn ((b.copy).setSymbol ((b.cellAt r c).row, (b.cellAt r c).col) (some v)))
      then (false, b)
      else (true, b.setSymbol (r, c) none) := rfl

/-- C3: for a currently-assigned cell, `reduce_cell` returns "reduced" and
unassigns the cell exactly when every alternative candidate yields an
unsolvable clone under the (spec-modelled) fresh solver; otherwise it
returns "not reduced" and leaves the board untouched. -/
theorem reduce_cell_iff_unsolvable (fuel : Nat) (b : Board) (r c : Nat)
    (h : (b.cellAt r c).symbol ≠ none) :
    ((Reducer.reduce_cell (fun bb => Solver.solve bb fuel) b r c).1 = true ↔
      ∀ v ∈ b.calculate_cell_candidates (b.cellAt r c),
        Solver.solve ((b.copy).setSymbol ((b.cellAt r c).row, (b.cellAt r c).col)
          (some v)) fuel = false) ∧
    ((Reducer.reduce_cell (fun bb => Solver.solve bb fuel) b r c).1 = true →
      (Reducer.reduce_cell (fun bb => Solver.solve bb fuel) b r c).2 =
        b.setSymbol (r, c) none) ∧
    ((Reducer.reduce_cell (fun bb => Solver.solve bb fuel) b r c).1 = false →
      (Reducer.reduce_cell (fun bb => Solver.solve bb fuel) b r c).2 = b) := by
  rw [reduce_cell_eq, if_neg h]
  by_cases hany : ((b.calculate_cell_candidates (b.cellAt r c)).any (fun v =>
      Solver.solve ((b.copy).setSymbol ((b.cellAt r c).row, (b.cellAt r c).col)
        (some v)) fuel)) = true
  · rw [if_pos hany]
    refine ⟨?_, by simp, by simp⟩
    simp only [List.any_eq_true] at hany
    obtain ⟨v, hv, hsolve⟩ := hany
    constructor
    · intro hfalse
      simp at hfalse
    · intro hall
      exact absurd (hall v hv) (by simp [hsolve])
  · rw [if_neg hany]
    refine ⟨?_, by simp, by simp⟩
    rw [Bool.not_eq_true, List.any_eq_false] at hany
    constructor
    · intro _ v hv
      simpa using hany v hv
    · intro _
      rfl

/-- Witness for C3: on the complete 1×1 grid, the single cell (holding
`"1"`, with no alternative candidates) is reduced and unassigned. -/
theorem reduce_cell_iff_unsolvable_witness :
    (wBoard1a.cellAt 0 0).symbol ≠ none ∧
    ((Reducer.reduce_cell (fun bb => Solver.solve bb 0) wBoard1a 0 0).1 = true ↔
      ∀ v ∈ wBoard1a.calculate_cell_candidates (wBoard1a.cellAt 0 0),
        Solver.solve ((wBoard1a.copy).setSymbol
          ((wBoard1a.cellAt 0 0).row, (wBoard1a.cellAt 0 0).col) (some v)) 0 = false) ∧
    (Reducer.reduce_cell (fun bb => Solver.solve bb 0) wBoard1a 0 0).1 = true :=
  ⟨by decide, (reduce_cell_iff_unsolvable 0 wBoard1a 0 0 (by decide)).1, by decide⟩

/-- C4: `reduce_cell` never changes any cell of the reducer's own grid other
than the target cell; whenever it returns "not reduced" — in particular
whenever the target cell is unassigned at entry — no cell changes at all. -/
theorem reduce_cell_frame (solveFn : Board → Bool) (b : Board) (r c : Nat) :
    (∀ q : Nat × Nat, q ≠ (r, c) →
      ((Reducer.reduce_cell solveFn b r c).2).cellAt q.1 q.2 = b.cellAt q.1 q.2) ∧
    ((Reducer.reduce_cell solveFn b r c).1 = false →
      (Reducer.reduce_cell solveFn b r c).2 = b) ∧
    ((b.cellAt r c).symbol = none →
      (Reducer.reduce_cell solveFn b r c).1 = false ∧
      (Reducer.reduce_cell solveFn b r c).2 = b) := by
  rw [reduce_cell_eq]
  by_cases h : (b.cellAt r c).symbol = none
  · rw [if_pos h]
    exact ⟨fun q _ => rfl, fun _ => rfl, fun _ => ⟨rfl, rfl⟩⟩
  · rw [if_neg h]
    by_cases hany : ((b.calculate_cell_candidates (b.cellAt r c)).any (fun v =>
        solveFn ((b.copy).setSymbol ((b.cellAt r c).row, (b.cellAt r c).col)
          (some v)))) = true
    · rw [if_pos hany]
      exact ⟨fun q _ => rfl, fun _ => rfl, fun hn => absurd hn h⟩
    · rw [if_neg hany]
      refine ⟨?_, by simp, fun hn => absurd hn h⟩
      intro q hq
      exact cellAt_setSymbol_ne b _ hq

/-- Witness for C4: on the complete 1×1 grid, reducing the cell at `(0, 0)`
leaves the (off-target) position `(1, 1)` untouched, and on the empty 1×1
grid the unassigned cell is not reduced and nothing changes. -/
theorem reduce_cell_frame_witness :
    (((Reducer.reduce_cell (fun _ => false) wBoard1a 0 0).2).cellAt 1 1 =
      wBoard1a.cellAt 1 1) ∧
    ((wBoard1.cellAt 0 0).symbol = none ∧
      (Reducer.reduce_cell (fun _ => false) wBoard1 0 0).1 = false ∧
      (Reducer.reduce_cell (fun _ => false) wBoard1 0 0).2 = wBoard1) :=
  ⟨(reduce_cell_frame (fun _ => false) wBoard1a 0 0).1 (1, 1) (by decide),
   by
    have hframe := (reduce_cell_frame (fun _ => false) wBoard1 0 0).2.2 (by decide)
    exact ⟨by decide, hframe.1, hframe.2⟩⟩

end Sudoku
